import Mathlib

/-!
Verification of the analysis-and-reply protocol of the AI email assistant
(`src/app.py`).  The Python source is shallowly embedded: pure fragments
become Lean functions, the OpenAI call is abstracted as an
`Except String String` outcome (error message or raw response text), and
CPython library routines that the code leans on (`json.loads`,
`str.strip`, `base64.urlsafe_b64decode`, `bytes.decode(..., "ignore")`)
are embedded at the level of detail the program exercises.
-/

namespace AiEmailAssistant

/-! ## Python string primitives

`str.strip()` removes the ASCII whitespace characters
`' '`, `'\t'`, `'\n'`, `'\r'`, `'\x0b'`, `'\x0c'` from both ends
(the app only ever feeds it text; the Unicode-only whitespace
code points do not occur in any claim).  `str.strip("`")` removes the
given characters instead.  `str.lower()` is ASCII case folding here. -/

def isPyWs (c : Char) : Bool :=
  c = ' ' || c = '\t' || c = '\n' || c = '\r' || c = '\x0b' || c = '\x0c'

/-- Drop the longest suffix whose characters satisfy `p`. -/
def rdropWhileP (p : Char → Bool) (cs : List Char) : List Char :=
  (cs.reverse.dropWhile p).reverse

def pyStripList (cs : List Char) : List Char :=
  rdropWhileP isPyWs (cs.dropWhile isPyWs)

/-- Python `s.strip()`. -/
def pyStrip (s : String) : String := ⟨pyStripList s.data⟩

/-- The backquote character, `chr(96)`. -/
def backquote : Char := Char.ofNat 96

/-- Python `s.strip(chr(96))` (used by the fence-repair pass). -/
def pyStripBackquotes (s : String) : String :=
  ⟨rdropWhileP (· = backquote) (s.data.dropWhile (· = backquote))⟩

/-- Python `s.lower()` (ASCII folding; the app only lowercases fence tags). -/
def pyLower (s : String) : String := ⟨s.data.map Char.toLower⟩

/-- Python `s[n:]`. -/
def pyDrop (s : String) (n : Nat) : String := ⟨s.data.drop n⟩

/-! ## JSON values

`json.loads` produces Python objects; `JsonValue` is their image.
Floats keep the matched literal (no claim compares float values, and
this avoids floating-point semantics); `obj` keeps the member list in
source order, with dictionary lookup taking the last binding (CPython
`dict(pairs)` lets later duplicates win). -/

inductive JsonValue where
  | null
  | bool (b : Bool)
  | int (n : Int)
  | float (lit : String)
  | str (s : String)
  | arr (elems : List JsonValue)
  | obj (members : List (String × JsonValue))

instance : Inhabited JsonValue := ⟨.null⟩

/-- CPython `dict` built from a pair list: the **last** binding of a key wins. -/
def dictGet (members : List (String × JsonValue)) (key : String) : Option JsonValue :=
  match members with
  | [] => none
  | (k, v) :: rest =>
    match dictGet rest key with
    | some w => some w
    | none => if k = key then some v else none

/-! ## The `json.loads` scanner (CPython `json/decoder.py`, strict mode)

Errors carry the length of the unconsumed input at the offending
character, from which the absolute position (and Python's
`line/column/char` rendering) is recovered at top level.  JSON
whitespace is only `' '`, `'\t'`, `'\n'`, `'\r'` — strictly smaller
than Python's `str.strip` set, which matters for the repair pass. -/

inductive JErrKind where
  | expectingValue
  | expectingPropertyName
  | expectingColon
  | expectingComma
  | unterminatedString
  | invalidControl (c : Char)
  | invalidEscape (c : Char)
  | invalidUEscape
  | extraData
deriving Repr, DecidableEq

structure JErr where
  kind : JErrKind
  rem : Nat
deriving Repr, DecidableEq

def isJsonWs (c : Char) : Bool :=
  c = ' ' || c = '\t' || c = '\n' || c = '\r'

def skipWs (cs : List Char) : List Char := cs.dropWhile isJsonWs

def hexVal (c : Char) : Option Nat :=
  if c.isDigit then some (c.toNat - 48)
  else if 'a' ≤ c ∧ c ≤ 'f' then some (c.toNat - 97 + 10)
  else if 'A' ≤ c ∧ c ≤ 'F' then some (c.toNat - 65 + 10)
  else none

def hex4 (a b c d : Char) : Option Nat :=
  match hexVal a, hexVal b, hexVal c, hexVal d with
  | some va, some vb, some vc, some vd => some (va * 4096 + vb * 256 + vc * 16 + vd)
  | _, _, _, _ => none

def escapeChar : Char → Option Char
  | '"' => some '"'
  | '\\' => some '\\'
  | '/' => some '/'
  | 'b' => some (Char.ofNat 8)
  | 'f' => some (Char.ofNat 12)
  | 'n' => some '\n'
  | 'r' => some '\r'
  | 't' => some '\t'
  | _ => none

/-- CPython `scanstring` (strict): input is the text after the opening
quote; returns the decoded content and the rest after the closing quote.
`q` is the remaining-length at the opening quote, used for the
"Unterminated string starting at" position.  A lone surrogate produced
by a `\uXXXX` escape is kept by CPython inside `str`; `Char` cannot hold
it, so it maps to NUL here — no claim touches that corner. -/
def scanString (q : Nat) (cs : List Char) : Except JErr (List Char × List Char) :=
  match cs with
  | [] => .error ⟨.unterminatedString, q⟩
  | '"' :: rest => .ok ([], rest)
  | '\\' :: 'u' :: a :: b :: c :: d :: '\\' :: 'u' :: e :: f :: g :: h :: rest3 =>
    match hex4 a b c d with
    | none => .error ⟨.invalidUEscape, rest3.length + 11⟩
    | some n =>
      if 0xD800 ≤ n ∧ n ≤ 0xDBFF then
        match hex4 e f g h with
        | some m =>
          if 0xDC00 ≤ m ∧ m ≤ 0xDFFF then
            (scanString q rest3).map
              (fun p => (Char.ofNat (0x10000 + (n - 0xD800) * 0x400 + (m - 0xDC00)) :: p.1, p.2))
          else
            (scanString q ('\\' :: 'u' :: e :: f :: g :: h :: rest3)).map
              (fun p => (Char.ofNat n :: p.1, p.2))
        | none =>
          (scanString q ('\\' :: 'u' :: e :: f :: g :: h :: rest3)).map
            (fun p => (Char.ofNat n :: p.1, p.2))
      else
        (scanString q ('\\' :: 'u' :: e :: f :: g :: h :: rest3)).map
          (fun p => (Char.ofNat n :: p.1, p.2))
  | '\\' :: 'u' :: a :: b :: c :: d :: rest2 =>
    match hex4 a b c d with
    | none => .error ⟨.invalidUEscape, rest2.length + 5⟩
    | some n => (scanString q rest2).map (fun p => (Char.ofNat n :: p.1, p.2))
  | '\\' :: 'u' :: rest2 => .error ⟨.invalidUEscape, rest2.length + 1⟩
  | '\\' :: e :: rest2 =>
    match escapeChar e with
    | some ch => (scanString q rest2).map (fun p => (ch :: p.1, p.2))
    | none => .error ⟨.invalidEscape e, rest2.length + 2⟩
  | ['\\'] => .error ⟨.unterminatedString, q⟩
  | c :: rest =>
    if c.toNat < 0x20 then .error ⟨.invalidControl c, rest.length + 1⟩
    else (scanString q rest).map (fun p => (c :: p.1, p.2))
termination_by cs.length
decreasing_by all_goals (simp; try omega)

def digitsToNat (ds : List Char) : Nat :=
  ds.foldl (fun acc c => acc * 10 + (c.toNat - '0'.toNat)) 0

/-- The optional leading `-` of the number regex. -/
def scanSign : List Char → Bool × List Char
  | '-' :: t => (true, t)
  | cs => (false, cs)

/-- The integer part `(?:0|[1-9]\d*)`. -/
def scanIntPart : List Char → Option (List Char × List Char)
  | '0' :: t => some (['0'], t)
  | c :: t =>
    if '1' ≤ c ∧ c ≤ '9' then some (c :: t.takeWhile Char.isDigit, t.dropWhile Char.isDigit)
    else none
  | [] => none

/-- The optional fraction `(\.\d+)?` (matched only when a digit follows
the dot, as the regex backtracks otherwise). -/
def scanFrac (cs2 : List Char) : List Char × List Char :=
  match cs2 with
  | '.' :: u =>
    if u.head?.any Char.isDigit then ('.' :: u.takeWhile Char.isDigit, u.dropWhile Char.isDigit)
    else ([], cs2)
  | _ => ([], cs2)

/-- The optional exponent `([eE][-+]?\d+)?`. -/
def scanExp (cs3 : List Char) : List Char × List Char :=
  match cs3 with
  | e :: s :: u2 =>
    if e = 'e' ∨ e = 'E' then
      if s = '+' ∨ s = '-' then
        if u2.head?.any Char.isDigit then
          (e :: s :: u2.takeWhile Char.isDigit, u2.dropWhile Char.isDigit)
        else ([], cs3)
      else if s.isDigit then (e :: (s :: u2).takeWhile Char.isDigit, (s :: u2).dropWhile Char.isDigit)
      else ([], cs3)
    else ([], cs3)
  | _ => ([], cs3)

/-- CPython `NUMBER_RE`: `(-?(?:0|[1-9]\d*))(\.\d+)?([eE][-+]?\d+)?`.
Integral matches become Python `int`s; anything with a fraction or
exponent stays a `float` carrying its literal. -/
def scanNumber (cs : List Char) : Option (JsonValue × List Char) :=
  let sgn := scanSign cs
  let neg := sgn.1
  let cs1 := sgn.2
  match scanIntPart cs1 with
  | none => none
  | some (ids, cs2) =>
    let fr := scanFrac cs2
    let fds := fr.1
    let cs3 := fr.2
    let ex := scanExp cs3
    let eds := ex.1
    let cs4 := ex.2
    if fds = [] ∧ eds = [] then
      some (.int (if neg then -(digitsToNat ids : Int) else (digitsToNat ids : Int)), cs4)
    else
      some (.float ⟨(if neg then ['-'] else []) ++ ids ++ fds ++ eds⟩, cs4)

mutual

/-- CPython scanner dispatch order: string, object, array, `null`, `true`,
`false`, number, `NaN`, `Infinity`, `-Infinity`; otherwise
"Expecting value".  The member/element loops mirror `JSONObject` /
`JSONArray`.  Fuel only bounds the recursion; `length + 1` always
suffices (each mutual call strictly consumes input). -/
def scanValueF : Nat → List Char → Except JErr (JsonValue × List Char)
  | 0, cs => .error ⟨.expectingValue, cs.length⟩
  | fuel + 1, cs =>
    match cs with
    | [] => .error ⟨.expectingValue, 0⟩
    | '"' :: rest => (scanString (rest.length + 1) rest).map (fun p => (.str ⟨p.1⟩, p.2))
    | '{' :: rest =>
      match skipWs rest with
      | '}' :: r => .ok (.obj [], r)
      | '"' :: r => (scanMembersF fuel r).map (fun p => (.obj p.1, p.2))
      | other => .error ⟨.expectingPropertyName, other.length⟩
    | '[' :: rest =>
      match skipWs rest with
      | ']' :: r => .ok (.arr [], r)
      | cs1 =>
        match scanValueF fuel cs1 with
        | .error e => .error e
        | .ok (v, r1) =>
          match scanElemsTailF fuel r1 with
          | .error e => .error e
          | .ok (vs, r2) => .ok (.arr (v :: vs), r2)
    | _ :: _ =>
      if List.isPrefixOf ['n','u','l','l'] cs then .ok (.null, cs.drop 4)
      else if List.isPrefixOf ['t','r','u','e'] cs then .ok (.bool true, cs.drop 4)
      else if List.isPrefixOf ['f','a','l','s','e'] cs then .ok (.bool false, cs.drop 5)
      else
        match scanNumber cs with
        | some (v, r) => .ok (v, r)
        | none =>
          if List.isPrefixOf ['N','a','N'] cs then .ok (.float "NaN", cs.drop 3)
          else if List.isPrefixOf ['I','n','f','i','n','i','t','y'] cs then
            .ok (.float "Infinity", cs.drop 8)
          else if List.isPrefixOf ['-','I','n','f','i','n','i','t','y'] cs then
            .ok (.float "-Infinity", cs.drop 9)
          else .error ⟨.expectingValue, cs.length⟩

/-- Object member loop, entered just after the opening quote of a key. -/
def scanMembersF : Nat → List Char → Except JErr (List (String × JsonValue) × List Char)
  | 0, cs => .error ⟨.expectingValue, cs.length⟩
  | fuel + 1, cs =>
    match scanString (cs.length + 1) cs with
    | .error e => .error e
    | .ok (key, r1) =>
      match skipWs r1 with
      | ':' :: r3 =>
        match scanValueF fuel (skipWs r3) with
        | .error e => .error e
        | .ok (v, r5) =>
          match skipWs r5 with
          | '}' :: r7 => .ok ([(⟨key⟩, v)], r7)
          | ',' :: r7 =>
            match skipWs r7 with
            | '"' :: r9 =>
              match scanMembersF fuel r9 with
              | .error e => .error e
              | .ok (ms, rr) => .ok ((⟨key⟩, v) :: ms, rr)
            | other => .error ⟨.expectingPropertyName, other.length⟩
          | other => .error ⟨.expectingComma, other.length⟩
      | other => .error ⟨.expectingColon, other.length⟩

/-- Array element loop, entered just after a parsed element. -/
def scanElemsTailF : Nat → List Char → Except JErr (List JsonValue × List Char)
  | 0, cs => .error ⟨.expectingValue, cs.length⟩
  | fuel + 1, cs =>
    match skipWs cs with
    | ']' :: r => .ok ([], r)
    | ',' :: r =>
      match scanValueF fuel (skipWs r) with
      | .error e => .error e
      | .ok (v, r5) =>
        match scanElemsTailF fuel r5 with
        | .error e => .error e
        | .ok (vs, r6) => .ok (v :: vs, r6)
    | other => .error ⟨.expectingComma, other.length⟩

end

/-! ## `json.loads`: whitespace framing, "Extra data", error rendering -/

def pyReprChar (c : Char) : String :=
  if c = '\n' then "'\\n'"
  else if c = '\t' then "'\\t'"
  else if c = '\r' then "'\\r'"
  else if c.toNat < 0x10 then "'\\x0" ++ ⟨[Nat.digitChar (c.toNat % 16)]⟩ ++ "'"
  else if c.toNat < 0x20 then "'\\x1" ++ ⟨[Nat.digitChar (c.toNat % 16)]⟩ ++ "'"
  else "'" ++ ⟨[c]⟩ ++ "'"

def jerrMsg : JErrKind → String
  | .expectingValue => "Expecting value"
  | .expectingPropertyName => "Expecting property name enclosed in double quotes"
  | .expectingColon => "Expecting ':' delimiter"
  | .expectingComma => "Expecting ',' delimiter"
  | .unterminatedString => "Unterminated string starting at"
  | .invalidControl _ => "Invalid control character at"
  | .invalidEscape _ => "Invalid \\escape"
  | .invalidUEscape => "Invalid \\uXXXX escape"
  | .extraData => "Extra data"

def lineOf (cs : List Char) (pos : Nat) : Nat := (cs.take pos).count '\n' + 1

def colOf (cs : List Char) (pos : Nat) : Nat :=
  match ((cs.take pos).reverse).findIdx? (· = '\n') with
  | some i => i + 1
  | none => pos + 1

/-- `str(JSONDecodeError)`: `f"{msg}: line {lineno} column {colno} (char {pos})"`. -/
def renderJErr (s : String) (e : JErr) : String :=
  let pos := s.length - e.rem
  jerrMsg e.kind ++ ": line " ++ toString (lineOf s.data pos) ++ " column " ++
    toString (colOf s.data pos) ++ " (char " ++ toString pos ++ ")"

def jsonLoadsRaw (cs : List Char) : Except JErr JsonValue :=
  let b1 := skipWs cs
  match scanValueF (b1.length + 1) b1 with
  | .error e => .error e
  | .ok (v, rest) =>
    let r2 := skipWs rest
    if r2 = [] then .ok v else .error ⟨.extraData, r2.length⟩

/-- Python `json.loads`, with the decode error rendered as `str(e)`. -/
def jsonLoads (s : String) : Except String JsonValue :=
  match jsonLoadsRaw s.data with
  | .ok v => .ok v
  | .error e => .error (renderJErr s e)

/-! ## Consumed-text characterisations of the scanner

`StrBody core s` says `core` is exactly the text a string scan consumes
after the opening quote (escapes resolved to `s`, closing quote
included).  `JBody v core` / `JMembers ms core` / `JElems vs core` do
the same for the three mutual scanners.  `NumBody` packages what the
number-regex lemmas establish.  These drive the two key facts: a
successful scan decomposes its input as `core ++ rest`, and scanning
`core ++ rest'` again succeeds for any tail `rest'` that cannot extend
a number token. -/

/-- Tails that cannot extend a just-scanned number token. -/
def safeTailB (cs : List Char) : Prop :=
  ∀ c, cs.head? = some c →
    ¬ (c.isDigit = true ∨ c = '.' ∨ c = 'e' ∨ c = 'E' ∨ c = '+' ∨ c = '-')

def allJsonWs (w : List Char) : Prop := ∀ c ∈ w, isJsonWs c = true

inductive StrBody : List Char → List Char → Prop where
  | quote : StrBody ['"'] []
  | norm (c : Char) (h1 : c ≠ '"') (h2 : c ≠ '\\') (h3 : ¬ c.toNat < 32) {core s : List Char}
      (ih : StrBody core s) : StrBody (c :: core) (c :: s)
  | esc (e ch : Char) (h : escapeChar e = some ch) {core s : List Char}
      (ih : StrBody core s) : StrBody ('\\' :: e :: core) (ch :: s)
  | uesc (a b c d : Char) (n : Nat) (h : hex4 a b c d = some n)
      (hn : ¬ (0xD800 ≤ n ∧ n ≤ 0xDBFF)) {core s : List Char}
      (ih : StrBody core s) :
      StrBody ('\\' :: 'u' :: a :: b :: c :: d :: core) (Char.ofNat n :: s)
  | ulone (a b c d : Char) (n : Nat) {core s : List Char} (h : hex4 a b c d = some n)
      (hn : 0xD800 ≤ n ∧ n ≤ 0xDBFF)
      (hnp : ∀ e f g h2 t m, core = '\\' :: 'u' :: e :: f :: g :: h2 :: t →
        hex4 e f g h2 = some m → ¬ (0xDC00 ≤ m ∧ m ≤ 0xDFFF))
      (ih : StrBody core s) :
      StrBody ('\\' :: 'u' :: a :: b :: c :: d :: core) (Char.ofNat n :: s)
  | upair (a b c d e f g h2 : Char) (n m : Nat) (ha : hex4 a b c d = some n)
      (hn : 0xD800 ≤ n ∧ n ≤ 0xDBFF) (hb : hex4 e f g h2 = some m)
      (hm : 0xDC00 ≤ m ∧ m ≤ 0xDFFF) {core s : List Char}
      (ih : StrBody core s) :
      StrBody ('\\' :: 'u' :: a :: b :: c :: d :: '\\' :: 'u' :: e :: f :: g :: h2 :: core)
        (Char.ofNat (0x10000 + (n - 0xD800) * 0x400 + (m - 0xDC00)) :: s)

/-- What the number-scan lemmas give: the consumed literal starts with a
sign or digit, ends with a digit, and rescans identically before any
tail that cannot extend it. -/
def NumBody (v : JsonValue) (core : List Char) : Prop :=
  (∃ c t, core = c :: t ∧ (c = '-' ∨ c.isDigit = true)) ∧
  (∃ c, core.getLast? = some c ∧ c.isDigit = true) ∧
  ∀ rest', safeTailB rest' → scanNumber (core ++ rest') = some (v, rest')

/-- The integer-part group of the number regex: `0 | [1-9][0-9]*`. -/
def IntPartShape (ids : List Char) : Prop :=
  ids = ['0'] ∨ ∃ c ds, ids = c :: ds ∧ ('1' ≤ c ∧ c ≤ '9') ∧ ∀ x ∈ ds, x.isDigit = true

/-- The fraction group: empty or `.` followed by one-plus digits. -/
def FracShape (f : List Char) : Prop :=
  f = [] ∨ ∃ ds, f = '.' :: ds ∧ ds ≠ [] ∧ ∀ x ∈ ds, x.isDigit = true

/-- The exponent group: empty or `[eE][+-]?[0-9]+`. -/
def ExpShape (e : List Char) : Prop :=
  e = [] ∨ ∃ e0 sg ds, (e0 = 'e' ∨ e0 = 'E') ∧ ds ≠ [] ∧ (∀ x ∈ ds, x.isDigit = true) ∧
    ((sg = [] ∧ e = e0 :: ds) ∨ ((sg = ['+'] ∨ sg = ['-']) ∧ e = e0 :: (sg ++ ds)))

/-- The value `scanNumber` builds from the matched groups. -/
def numValue (neg : Bool) (ids fds eds : List Char) : JsonValue :=
  if fds = [] ∧ eds = [] then
    .int (if neg then -(digitsToNat ids : Int) else (digitsToNat ids : Int))
  else .float ⟨(if neg then ['-'] else []) ++ ids ++ fds ++ eds⟩

mutual

inductive JBody : JsonValue → List Char → Prop where
  | str (score s : List Char) (h : StrBody score s) : JBody (.str ⟨s⟩) ('"' :: score)
  | objEmpty (w : List Char) (hw : allJsonWs w) : JBody (.obj []) ('{' :: w ++ ['}'])
  | objMembers (w core : List Char) (ms : List (String × JsonValue)) (hw : allJsonWs w)
      (h : JMembers ms core) : JBody (.obj ms) ('{' :: w ++ '"' :: core)
  | arrEmpty (w : List Char) (hw : allJsonWs w) : JBody (.arr []) ('[' :: w ++ [']'])
  | arrElems (w core1 core2 : List Char) (v : JsonValue) (vs : List JsonValue)
      (hw : allJsonWs w) (h1 : JBody v core1) (h2 : JElems vs core2) :
      JBody (.arr (v :: vs)) ('[' :: w ++ core1 ++ core2)
  | nullLit : JBody .null ['n', 'u', 'l', 'l']
  | trueLit : JBody (.bool true) ['t', 'r', 'u', 'e']
  | falseLit : JBody (.bool false) ['f', 'a', 'l', 's', 'e']
  | num (v : JsonValue) (core : List Char) (h : NumBody v core) : JBody v core
  | nanLit : JBody (.float "NaN") ['N', 'a', 'N']
  | infLit : JBody (.float "Infinity") ['I', 'n', 'f', 'i', 'n', 'i', 't', 'y']
  | ninfLit : JBody (.float "-Infinity") ['-', 'I', 'n', 'f', 'i', 'n', 'i', 't', 'y']

inductive JMembers : List (String × JsonValue) → List Char → Prop where
  | last (kcore kcs w1 w2 w3 vcore : List Char) (v : JsonValue)
      (hk : StrBody kcore kcs) (hw1 : allJsonWs w1) (hw2 : allJsonWs w2) (hw3 : allJsonWs w3)
      (hv : JBody v vcore) :
      JMembers [(⟨kcs⟩, v)] (kcore ++ w1 ++ ':' :: w2 ++ vcore ++ w3 ++ ['}'])
  | cons (kcore kcs w1 w2 w3 w4 vcore core2 : List Char) (v : JsonValue)
      (ms : List (String × JsonValue))
      (hk : StrBody kcore kcs) (hw1 : allJsonWs w1) (hw2 : allJsonWs w2) (hw3 : allJsonWs w3)
      (hw4 : allJsonWs w4) (hv : JBody v vcore) (hm : JMembers ms core2) :
      JMembers ((⟨kcs⟩, v) :: ms)
        (kcore ++ w1 ++ ':' :: w2 ++ vcore ++ w3 ++ ',' :: w4 ++ '"' :: core2)

inductive JElems : List JsonValue → List Char → Prop where
  | nil (w : List Char) (hw : allJsonWs w) : JElems [] (w ++ [']'])
  | cons (w1 w2 vcore core2 : List Char) (v : JsonValue) (vs : List JsonValue)
      (hw1 : allJsonWs w1) (hw2 : allJsonWs w2) (h1 : JBody v vcore) (h2 : JElems vs core2) :
      JElems (v :: vs) (w1 ++ ',' :: w2 ++ vcore ++ core2)

end

/-! ## `analyze_and_reply` (src/app.py lines 186-289)

The completion call is abstracted as `provider : Except String String`:
`.error e` is an exception raised by
`client.chat.completions.create` (or while reading the response), with
`e = str(exception)`; `.ok content` is
`response.choices[0].message.content`.  The Python function returns a
single Python value — the parsed JSON `data` on success, or a `str`
carrying an error message — so the embedding returns `JsonValue`, with
error strings as `.str`. -/

/-- Lines 278-283: the repair pass applied to `raw_content` after the
first `json.loads` fails — strip, drop a backquote fence, drop a
(case-insensitive) `json` tag. -/
def repairClean (raw_content : String) : String :=
  let cleaned := pyStrip raw_content
  if List.isPrefixOf "```".data cleaned.data then
    let c2 := pyStripBackquotes cleaned
    if List.isPrefixOf "json".data (pyLower c2).data then
      pyStrip (pyDrop c2 4)
    else c2
  else cleaned

/-- Lines 274-286: parse `raw_content`; on `json.JSONDecodeError` retry
once on the repaired text.  A second decode failure escapes to the outer
`except Exception` handler. -/
def interpretResponse (raw_content : String) : Except String JsonValue :=
  match jsonLoads raw_content with
  | .ok data => .ok data
  | .error _ => jsonLoads (repairClean raw_content)

/-- Lines 186-289 (the `num_options`/prompt arguments do not influence
the result once the provider outcome is fixed, so they are dropped
here; the prompt text itself is `user_prompt` below).  `clientConfigured`
models `client is not None`. -/
def analyze_and_reply (clientConfigured : Bool) (provider : Except String String) : JsonValue :=
  if clientConfigured = false then
    .str "Error: OpenAI client is not configured. Check your API key."
  else
    match provider with
    | .error e => .str ("Error while calling OpenAI API: " ++ e)
    | .ok content =>
      match interpretResponse (pyStrip content) with
      | .ok data => data
      | .error e => .str ("Error while calling OpenAI API: " ++ e)

/-! ## The prompt builder (lines 222-259)

The f-string `user_prompt`, transcribed byte for byte; `\x7b`/`\x7d`
are the literal braces written `{{`/`}}` in the f-string. -/

def upPart0 : String :=
  "\nYou will receive an email and some preferences for the reply.\n\nEmail:\n\"\"\""

def upPart1 : String := "\"\"\"\n\nPreferences:\n- Tone: "

def upPart2 : String := "\n- Formality: "

def upPart3 : String := "\n- Length: "

def upPart4 : String :=
  " \n  (Short = 3–5 sentences, Medium = 6–10 sentences, Long = more detailed)\n- Number of reply options: "

def upPart5 : String :=
  "\n\nReturn ONLY a JSON object with the following EXACT structure (no comments, no extra text):\n\n\x7b\n  \"language\": \"<detected_language_code_or_name>\",\n  \"urgency\": \"<low|medium|high>\",\n  \"sentiment\": \"<positive|neutral|negative|mixed>\",\n  \"category\": \"<short_category_label>\",\n  \"summary\": \"<short_paragraph_summary>\",\n  \"action_items\": [\n    \"<item_1>\",\n    \"<item_2>\"\n  ],\n  \"replies\": [\n    \x7b\n      \"subject\": \"<suggested_subject_line>\",\n      \"body\": \"<full_email_body_ready_to_send>\"\n    \x7d\n  ]\n\x7d\n\nRules:\n- The length and style of each reply must match the user's preferences.\n- The number of elements in 'replies' MUST be exactly "

def upPart6 : String := ".\n- Do NOT include any explanation outside the JSON.\n"

/-- Lines 222-259: the user prompt.  `num_options` renders by `str()`,
i.e. `toString`. -/
def user_prompt (email_text tone formality length : String) (num_options : Nat) : String :=
  upPart0 ++ email_text ++ upPart1 ++ tone ++ upPart2 ++ formality ++ upPart3 ++ length ++
    upPart4 ++ toString num_options ++ upPart5 ++ toString num_options ++ upPart6

/-! ## Result display (lines 409-447)

The handler treats a `str` result as an error; otherwise it reads each
field independently with `dict.get` defaults: `"N/A"` for the four
classification fields, and falsey-coalescing (`x or default`) to `""` /
`[]` for `summary`, `action_items`, `replies`. -/

def floatLitIsZero (lit : String) : Bool :=
  (lit.data.takeWhile (fun c => ¬ (c = 'e' ∨ c = 'E'))).all (fun c => ¬ ('1' ≤ c ∧ c ≤ '9'))

/-- Python truthiness of a JSON-shaped value. -/
def pyTruthy : JsonValue → Bool
  | .null => false
  | .bool b => b
  | .int n => decide (n ≠ 0)
  | .float lit =>
    if lit = "NaN" ∨ lit = "Infinity" ∨ lit = "-Infinity" then true else ! floatLitIsZero lit
  | .str s => decide (s ≠ "")
  | .arr xs => ! xs.isEmpty
  | .obj ms => ! ms.isEmpty

/-- Python `x or default` applied to an optional dict lookup:
`result.get(k) or default`. -/
def orDefault (v : Option JsonValue) (d : JsonValue) : JsonValue :=
  match v with
  | some x => if pyTruthy x then x else d
  | none => d

/-- The seven values the renderer extracts from a successful result
(lines 416-419, 431-432, 444). -/
structure DisplayedAnalysis where
  language : JsonValue
  urgency : JsonValue
  sentiment : JsonValue
  category : JsonValue
  summary : JsonValue
  action_items : JsonValue
  replies : JsonValue

/-- Lines 416-444: per-field defaulting of a parsed (dict) result. -/
def render_analysis (result : List (String × JsonValue)) : DisplayedAnalysis :=
  { language := (dictGet result "language").getD (.str "N/A")
    urgency := (dictGet result "urgency").getD (.str "N/A")
    sentiment := (dictGet result "sentiment").getD (.str "N/A")
    category := (dictGet result "category").getD (.str "N/A")
    summary := orDefault (dictGet result "summary") (.str "")
    action_items := orDefault (dictGet result "action_items") (.arr [])
    replies := orDefault (dictGet result "replies") (.arr []) }

/-! ## The submit handler (lines 394-407)

`validationWarning` is the `st.warning` branch (no completion call is
issued and the session stays in its idle state);
`configurationError` is the `st.error` branch for a missing client;
`completed` means `analyze_and_reply` was invoked. -/

inductive HandlerOutcome where
  | validationWarning (msg : String)
  | configurationError (msg : String)
  | completed (result : JsonValue)

/-- Lines 394-407: the `analyze_button` click handler. -/
def analyze_button_handler (email_text : String) (clientConfigured : Bool)
    (provider : Except String String) : HandlerOutcome :=
  if pyStrip email_text = "" then
    .validationWarning "Please paste an email or load one from Gmail before generating replies."
  else if clientConfigured = false then
    .configurationError "OpenAI client is not configured. Check your API key."
  else
    .completed (analyze_and_reply clientConfigured provider)

/-! ## The Gmail connector (lines 91-182)

Messages are embedded structurally: `Option` fields model keys that may
be absent from the API's dicts.  `base64.urlsafe_b64decode` can raise
(`binascii.Error` on bad padding), so decoding returns `Option`; `none`
anywhere models an exception escaping `get_gmail_message_body`. -/

structure PartBody where
  data : Option String
deriving Repr, DecidableEq, Inhabited

structure MessagePart where
  mimeType : Option String
  body : Option PartBody
deriving Repr, DecidableEq, Inhabited

structure MessagePayload where
  body : Option PartBody
  parts : Option (List MessagePart)
deriving Repr, DecidableEq, Inhabited

structure GmailMessage where
  payload : Option MessagePayload
deriving Repr, DecidableEq, Inhabited

def b64CharVal (c : Char) : Option Nat :=
  if 'A' ≤ c ∧ c ≤ 'Z' then some (c.toNat - 65)
  else if 'a' ≤ c ∧ c ≤ 'z' then some (c.toNat - 71)
  else if '0' ≤ c ∧ c ≤ '9' then some (c.toNat + 4)
  else if c = '+' then some 62
  else if c = '/' then some 63
  else none

def urlsafeTranslate (c : Char) : Char := if c = '-' then '+' else if c = '_' then '/' else c

def b64Keep (c : Char) : Bool := (b64CharVal c).isSome || c = '='

/-- Decode filtered base64 text four characters at a time; `=` padding
closes the stream (CPython's lenient `binascii.a2b_base64`); a leftover
group is the `binascii.Error("Incorrect padding")` case, i.e. `none`. -/
def b64DecodeQuads : List Char → Option (List Nat)
  | [] => some []
  | a :: b :: c :: d :: rest =>
    match b64CharVal a, b64CharVal b with
    | some va, some vb =>
      if c = '=' then some [va * 4 + vb / 16]
      else
        match b64CharVal c with
        | some vc =>
          if d = '=' then some [va * 4 + vb / 16, (vb % 16) * 16 + vc / 4]
          else
            match b64CharVal d with
            | some vd =>
              (b64DecodeQuads rest).map
                (fun bs => (va * 4 + vb / 16) :: ((vb % 16) * 16 + vc / 4) :: ((vc % 4) * 64 + vd) :: bs)
            | none => none
        | none => none
    | _, _ => none
  | _ => none

/-- `base64.urlsafe_b64decode` on the UTF-8 encoding of `s`: translate
`-`/`_`, discard non-alphabet characters, decode. -/
def urlsafe_b64decode (s : String) : Option (List Nat) :=
  b64DecodeQuads ((s.data.map urlsafeTranslate).filter b64Keep)

def utf8ContOk (b : Nat) : Bool := 0x80 ≤ b && b ≤ 0xBF

def utf8Cont2Ok (b b2 : Nat) : Bool :=
  if b = 0xE0 then 0xA0 ≤ b2 && b2 ≤ 0xBF
  else if b = 0xED then 0x80 ≤ b2 && b2 ≤ 0x9F
  else utf8ContOk b2

def utf8Cont3Ok (b b2 : Nat) : Bool :=
  if b = 0xF0 then 0x90 ≤ b2 && b2 ≤ 0xBF
  else if b = 0xF4 then 0x80 ≤ b2 && b2 ≤ 0x8F
  else utf8ContOk b2

/-- `bytes.decode("UTF-8", errors="ignore")`: total; malformed bytes are
dropped and decoding resynchronises at the next byte.  Fuel only bounds
the recursion (every step consumes at least one byte, so
`bs.length + 1` always suffices). -/
def utf8DecodeIgnoreF : Nat → List Nat → List Char
  | 0, _ => []
  | fuel + 1, bs =>
    match bs with
    | [] => []
    | b :: rest =>
      if b < 0x80 then Char.ofNat b :: utf8DecodeIgnoreF fuel rest
      else if 0xC2 ≤ b ∧ b ≤ 0xDF then
        match rest with
        | b2 :: rest2 =>
          if utf8ContOk b2 then
            Char.ofNat ((b - 0xC0) * 64 + (b2 - 0x80)) :: utf8DecodeIgnoreF fuel rest2
          else utf8DecodeIgnoreF fuel (b2 :: rest2)
        | [] => []
      else if 0xE0 ≤ b ∧ b ≤ 0xEF then
        match rest with
        | b2 :: b3 :: rest2 =>
          if utf8Cont2Ok b b2 ∧ utf8ContOk b3 then
            Char.ofNat ((b - 0xE0) * 4096 + (b2 - 0x80) * 64 + (b3 - 0x80)) ::
              utf8DecodeIgnoreF fuel rest2
          else utf8DecodeIgnoreF fuel (b2 :: b3 :: rest2)
        | [b2] => utf8DecodeIgnoreF fuel [b2]
        | [] => []
      else if 0xF0 ≤ b ∧ b ≤ 0xF4 then
        match rest with
        | b2 :: b3 :: b4 :: rest2 =>
          if utf8Cont3Ok b b2 ∧ utf8ContOk b3 ∧ utf8ContOk b4 then
            Char.ofNat ((b - 0xF0) * 262144 + (b2 - 0x80) * 4096 + (b3 - 0x80) * 64 +
                (b4 - 0x80)) :: utf8DecodeIgnoreF fuel rest2
          else utf8DecodeIgnoreF fuel (b2 :: b3 :: b4 :: rest2)
        | [b2, b3] => utf8DecodeIgnoreF fuel [b2, b3]
        | [b2] => utf8DecodeIgnoreF fuel [b2]
        | [] => []
      else utf8DecodeIgnoreF fuel rest

def utf8DecodeIgnore (bs : List Nat) : List Char := utf8DecodeIgnoreF (bs.length + 1) bs

/-- Lines 154-159: `decode_data` — base64url-decode, UTF-8-decode
dropping invalid bytes, then `strip()`.  `none` models the
`binascii.Error` a malformed transport encoding raises. -/
def decode_data (data : String) : Option String :=
  (urlsafe_b64decode data).map (fun bs => pyStrip ⟨utf8DecodeIgnore bs⟩)

/-- The first part with the wanted MIME type and a `"data"` key in its
body - the `for`/`break` loops of lines 167-180. -/
def firstPartData (parts : List MessagePart) (mt : String) : Option String :=
  match parts with
  | [] => none
  | p :: rest =>
    if (p.mimeType.getD "") = mt then
      match (p.body.getD default).data with
      | some d => some d
      | none => firstPartData rest mt
    else firstPartData rest mt

/-- The `text/html` fallback loop plus the default empty body
(lines 174-182). -/
def htmlFallback (parts : List MessagePart) : Option String :=
  match firstPartData parts "text/html" with
  | some d => decode_data d
  | none => some ""

/-- Lines 139-182: `get_gmail_message_body` (the `service.users()...`
fetch is abstracted into the `msg` argument).  Returns `none` when
decoding raises. -/
def get_gmail_message_body (msg : GmailMessage) : Option String :=
  let payload := msg.payload.getD default
  let parts := payload.parts.getD []
  match (payload.body.getD default).data with
  | some d => decode_data d
  | none =>
    match firstPartData parts "text/plain" with
    | some d =>
      match decode_data d with
      | none => none
      | some t => if t = "" then htmlFallback parts else some t
    | none => htmlFallback parts

/-! ## Inbox listing (lines 91-136) -/

structure MsgDetail where
  payloadHeaders : Option (List (String × String))
  snippet : Option String
deriving Repr, DecidableEq

structure GmailSummaryItem where
  id : String
  from_ : String
  subject : String
  snippet : String
deriving Repr, DecidableEq

/-- The dict comprehension over `headers` (line 124): last binding wins. -/
def headerGet (headers : List (String × String)) (name : String) : Option String :=
  match headers with
  | [] => none
  | (k, v) :: rest =>
    match headerGet rest name with
    | some w => some w
    | none => if k = name then some v else none

/-- Lines 123-134: one message's summary dict. -/
def summarize_message (mid : String) (d : MsgDetail) : GmailSummaryItem :=
  let header_dict := d.payloadHeaders.getD []
  { id := mid
    from_ := (headerGet header_dict "From").getD "Unknown"
    subject := (headerGet header_dict "Subject").getD "(No subject)"
    snippet := d.snippet.getD "" }

/-- Lines 109-136: `list_gmail_messages`, with the per-id metadata fetch
abstracted into the association list `msgs`. -/
def list_gmail_messages (msgs : List (String × MsgDetail)) : List GmailSummaryItem :=
  msgs.map (fun m => summarize_message m.1 m.2)

/-! ## Observers used to state claims (shape tests on results) -/

/-- Is the result a parsed JSON object (a Python `dict`)? -/
def isObjV : JsonValue → Bool
  | .obj _ => true
  | _ => false

/-- The text of a string result (`""` otherwise). -/
def resultText : JsonValue → String
  | .str m => m
  | _ => ""

/-- "Returns either a parsed dictionary or an error string beginning
`Error`" as a shape test. -/
def dictOrError : JsonValue → Bool
  | .obj _ => true
  | .str m => List.isPrefixOf "Error".data m.data
  | _ => false

/-! # Theorems

## Whitespace and stripping toolkit -/

theorem strData_append (a b : String) : (a ++ b).data = a.data ++ b.data := rfl

theorem dropWhile_append_all {p : Char → Bool} {w s : List Char} (h : ∀ c ∈ w, p c = true) :
    (w ++ s).dropWhile p = s.dropWhile p := by
  induction w with
  | nil => rfl
  | cons c t ih =>
    rw [List.cons_append, List.dropWhile_cons, if_pos (h c (List.mem_cons_self c t))]
    exact ih fun x hx => h x (List.mem_cons_of_mem _ hx)

theorem dropWhile_cons_neg {p : Char → Bool} {c : Char} {t : List Char} (h : p c = false) :
    (c :: t).dropWhile p = c :: t := by
  rw [List.dropWhile_cons, if_neg (by simp [h])]

theorem dropWhile_all_nil {p : Char → Bool} {w : List Char} (h : ∀ c ∈ w, p c = true) :
    w.dropWhile p = [] :=
  List.dropWhile_eq_nil_iff.mpr h

theorem dropWhile_head_false {p : Char → Bool} :
    ∀ (l : List Char) {c t}, l.dropWhile p = c :: t → p c = false
  | [], c, t, h => by simp [List.dropWhile] at h
  | a :: l, c, t, h => by
    rw [List.dropWhile_cons] at h
    by_cases hp : p a
    · rw [if_pos hp] at h; exact dropWhile_head_false l h
    · rw [if_neg hp] at h
      cases h
      simpa using hp

theorem rdropWhileP_append_all {p : Char → Bool} {s w : List Char} (h : ∀ c ∈ w, p c = true) :
    rdropWhileP p (s ++ w) = rdropWhileP p s := by
  unfold rdropWhileP
  rw [List.reverse_append, dropWhile_append_all (by intro c hc; exact h c (by simpa using hc))]

theorem rdropWhileP_last_neg {p : Char → Bool} {s : List Char} {c : Char} (h : p c = false) :
    rdropWhileP p (s ++ [c]) = s ++ [c] := by
  unfold rdropWhileP
  rw [List.reverse_append, List.reverse_singleton, List.singleton_append, dropWhile_cons_neg h,
    List.reverse_cons, List.reverse_reverse]

theorem rdropWhileP_mid {p : Char → Bool} {s w : List Char} {c : Char} (hc : p c = false)
    (hw : ∀ x ∈ w, p x = true) : rdropWhileP p (s ++ c :: w) = s ++ [c] := by
  have : s ++ c :: w = (s ++ [c]) ++ w := by simp
  rw [this, rdropWhileP_append_all hw, rdropWhileP_last_neg hc]

theorem isPyWs_of_isJsonWs {c : Char} (h : isJsonWs c = true) : isPyWs c = true := by
  simp only [isJsonWs, Bool.or_eq_true, decide_eq_true_eq] at h
  rcases h with ((h | h) | h) | h <;> simp [isPyWs, h]

theorem isJsonWs_safe {c : Char} (h : isJsonWs c = true) :
    ¬ (c.isDigit = true ∨ c = '.' ∨ c = 'e' ∨ c = 'E' ∨ c = '+' ∨ c = '-') := by
  simp only [isJsonWs, Bool.or_eq_true, decide_eq_true_eq] at h
  rcases h with ((h | h) | h) | h <;> subst h <;> decide

theorem safeTailB_nil : safeTailB [] := by intro c hc; simp at hc

theorem safeTailB_ws_head {w rest : List Char} (hw : allJsonWs w)
    (hrest : safeTailB rest) : safeTailB (w ++ rest) := by
  cases w with
  | nil => simpa using hrest
  | cons c t =>
    intro x hx
    simp only [List.cons_append, List.head?_cons, Option.some.injEq] at hx
    subst hx
    exact isJsonWs_safe (hw c (List.mem_cons_self c t))

theorem skipWs_append_all {w s : List Char} (h : allJsonWs w) :
    skipWs (w ++ s) = skipWs s := dropWhile_append_all h

theorem skipWs_all_nil {w : List Char} (h : allJsonWs w) : skipWs w = [] :=
  dropWhile_all_nil h

theorem skipWs_cons_neg {c : Char} {t : List Char} (h : isJsonWs c = false) :
    skipWs (c :: t) = c :: t := dropWhile_cons_neg h

/-! ## String scanning versus `StrBody` -/

theorem StrBody.str_ne_nil {core s : List Char} (h : StrBody core s) : core ≠ [] := by
  cases h <;> simp

theorem StrBody.last_quote {core s : List Char} (h : StrBody core s) :
    core.getLast? = some '"' := by
  induction h with
  | quote => rfl
  | norm c h1 h2 h3 ih ihs =>
    obtain ⟨c0, t0, rfl⟩ : ∃ c0 t0, _ = c0 :: t0 := List.exists_cons_of_ne_nil ih.str_ne_nil
    simpa [List.getLast?_cons_cons] using ihs
  | esc e ch h ih ihs =>
    obtain ⟨c0, t0, rfl⟩ : ∃ c0 t0, _ = c0 :: t0 := List.exists_cons_of_ne_nil ih.str_ne_nil
    simpa [List.getLast?_cons_cons] using ihs
  | uesc a b c d n h hn ih ihs =>
    obtain ⟨c0, t0, rfl⟩ : ∃ c0 t0, _ = c0 :: t0 := List.exists_cons_of_ne_nil ih.str_ne_nil
    simpa [List.getLast?_cons_cons] using ihs
  | ulone a b c d n h hn hnp ih ihs =>
    obtain ⟨c0, t0, rfl⟩ : ∃ c0 t0, _ = c0 :: t0 := List.exists_cons_of_ne_nil ih.str_ne_nil
    simpa [List.getLast?_cons_cons] using ihs
  | upair a b c d e f g h2 n m ha hn hb hm ih ihs =>
    obtain ⟨c0, t0, rfl⟩ : ∃ c0 t0, _ = c0 :: t0 := List.exists_cons_of_ne_nil ih.str_ne_nil
    simpa [List.getLast?_cons_cons] using ihs

theorem escapeChar_ne_u {e ch : Char} (h : escapeChar e = some ch) : e ≠ 'u' := by
  rintro rfl; simp [escapeChar] at h

/-- Completeness: a `StrBody` core rescans in front of any tail. -/
theorem strBody_scan {core s : List Char} (h : StrBody core s) :
    ∀ (q : Nat) (rest' : List Char), scanString q (core ++ rest') = .ok (s, rest') := by
  induction h with
  | quote => intro q r; simp [scanString]
  | norm c h1 h2 h3 ih ihs =>
    intro q r
    rw [List.cons_append, scanString]
    · rw [if_neg h3, ihs q r]; rfl
    · exact h1
    all_goals intro _ <;> first
      | (intro h'; exact absurd h' h2)
      | (intros; exact absurd (by assumption : c = '\\') h2)
  | esc e ch h ih ihs =>
    intro q r
    rw [List.cons_append, List.cons_append, scanString]
    · rw [h, ihs q r]; rfl
    all_goals intros <;>
      first
        | (exact escapeChar_ne_u h (by assumption))
        | (rename_i heq; exact absurd heq (by simp))
  | uesc a b c d n h hn ih ihs =>
    intro q r
    cases ih with
    | quote =>
      have hx := ihs q r
      simp only [List.singleton_append] at hx
      simp only [List.cons_append]
      rw [scanString]
      · simp [h, hx, Except.map]
      all_goals intros <;> simp_all
    | norm c' h1' h2' h3' ih' =>
      have hx := ihs q r
      simp only [List.cons_append] at hx ⊢
      rw [scanString]
      · simp [h, hx, Except.map]
      all_goals intros <;> simp_all
    | esc e' ch' h' ih' =>
      have hx := ihs q r
      simp only [List.cons_append] at hx ⊢
      rw [scanString]
      · simp [h, hx, Except.map]
      all_goals intros <;> first
        | (exact escapeChar_ne_u h' (by simp_all))
        | simp_all
    | uesc a2 b2 c2 d2 n2 h' hn' ih' =>
      have hx := ihs q r
      simp only [List.cons_append] at hx ⊢
      rw [scanString]
      · simp [h, hn, hx, Except.map]
      all_goals intros <;> simp_all
    | ulone a2 b2 c2 d2 n2 h' hn' hnp' ih' =>
      have hx := ihs q r
      simp only [List.cons_append] at hx ⊢
      rw [scanString]
      · simp [h, hn, hx, Except.map]
      all_goals intros <;> simp_all
    | upair a2 b2 c2 d2 e2 f2 g2 h22 n2 m2 ha2 hn2 hb2 hm2 ih' =>
      have hx := ihs q r
      simp only [List.cons_append] at hx ⊢
      rw [scanString]
      · simp [h, hn, hx, Except.map]
      all_goals intros <;> simp_all
  | ulone a b c d n h hn hnp ih ihs =>
    intro q r
    cases ih with
    | quote =>
      have hx := ihs q r
      simp only [List.singleton_append] at hx
      simp only [List.cons_append]
      rw [scanString]
      · simp [h, hx, Except.map]
      all_goals intros <;> simp_all
    | norm c' h1' h2' h3' ih' =>
      have hx := ihs q r
      simp only [List.cons_append] at hx ⊢
      rw [scanString]
      · simp [h, hx, Except.map]
      all_goals intros <;> simp_all
    | esc e' ch' h' ih' =>
      have hx := ihs q r
      simp only [List.cons_append] at hx ⊢
      rw [scanString]
      · simp [h, hx, Except.map]
      all_goals intros <;> first
        | (exact escapeChar_ne_u h' (by simp_all))
        | simp_all
    | uesc a2 b2 c2 d2 n2 h' hn' ih' =>
      have hx := ihs q r
      have hlow := hnp a2 b2 c2 d2 _ n2 rfl h'
      simp only [List.cons_append] at hx ⊢
      rw [scanString]
      · simp [h, hn, h', hlow, hx, Except.map]
      all_goals intros <;> simp_all
    | ulone a2 b2 c2 d2 n2 h' hn' hnp' ih' =>
      have hx := ihs q r
      have hlow := hnp a2 b2 c2 d2 _ n2 rfl h'
      simp only [List.cons_append] at hx ⊢
      rw [scanString]
      · simp [h, hn, h', hlow, hx, Except.map]
      all_goals intros <;> simp_all
    | upair a2 b2 c2 d2 e2 f2 g2 h22 n2 m2 ha2 hn2 hb2 hm2 ih' =>
      have hx := ihs q r
      have hlow := hnp a2 b2 c2 d2 _ n2 rfl ha2
      simp only [List.cons_append] at hx ⊢
      rw [scanString]
      · simp [h, hn, ha2, hlow, hx, Except.map]
      all_goals intros <;> simp_all
  | upair a b c d e f g h2 n m ha hn hb hm ih ihs =>
    intro q r
    have hx := ihs q r
    simp only [List.cons_append] at hx ⊢
    rw [scanString]
    · simp [ha, hn, hb, hm, hx, Except.map]
    all_goals intros <;> simp_all

theorem scan_map_ok {E A B C : Type} {g : A → C} {x : Except E (A × B)} {c : C} {b : B}
    (h : (x.map (fun p => (g p.1, p.2))) = .ok (c, b)) : ∃ a, x = .ok (a, b) ∧ c = g a := by
  cases x with
  | error e => exact absurd h (by simp [Except.map])
  | ok p =>
    obtain ⟨a, b'⟩ := p
    simp only [Except.map] at h
    injection h with h'
    rw [Prod.mk.injEq] at h'
    exact ⟨a, by rw [h'.2], h'.1.symm⟩

/-- Soundness: a successful string scan splits its input as a `StrBody`
core followed by the returned rest. -/
theorem scanString_sound {q : Nat} {cs s rest : List Char}
    (h : scanString q cs = .ok (s, rest)) :
    ∃ core, cs = core ++ rest ∧ StrBody core s := by
  induction cs using scanString.induct (q := q) generalizing s rest
  all_goals simp only [scanString, *, and_self, if_true] at h
  all_goals try exact Except.noConfusion h
  case case2 rest0 =>
    injection h with h'
    rw [Prod.mk.injEq] at h'
    obtain ⟨hs, hr⟩ := h'
    exact ⟨['"'], by rw [hr]; rfl, by rw [← hs]; exact .quote⟩
  case case4 a b c d e f g h2 rest3 n hx4 hhi m hx4b hlo ih =>
    obtain ⟨s0, hscan, hs⟩ := scan_map_ok h
    obtain ⟨core0, hX, hsb⟩ := ih hscan
    refine ⟨'\\' :: 'u' :: a :: b :: c :: d :: '\\' :: 'u' :: e :: f :: g :: h2 :: core0,
      by simp only [List.cons_append]; rw [← hX], ?_⟩
    rw [hs]
    exact .upair a b c d e f g h2 n m hx4 hhi hx4b hlo hsb
  case case5 a b c d e f g h2 rest3 n hx4 hhi m hx4b hlo ih =>
    obtain ⟨s0, hscan, hs⟩ := scan_map_ok h
    obtain ⟨core0, hX, hsb⟩ := ih hscan
    refine ⟨'\\' :: 'u' :: a :: b :: c :: d :: core0,
      by simp only [List.cons_append]; rw [← hX], ?_⟩
    rw [hs]
    refine .ulone a b c d n hx4 hhi ?_ hsb
    intro e2 f2 g2 h22 t m2 hshape hx2
    rw [hshape] at hX
    have hij : e2 = e ∧ f2 = f ∧ g2 = g ∧ h22 = h2 := by
      have h5 := hX.symm
      simp only [List.cons_append, List.cons.injEq] at h5
      tauto
    obtain ⟨rfl, rfl, rfl, rfl⟩ := hij
    rw [hx2] at hx4b
    injection hx4b with hm
    rw [← hm] at hlo
    exact hlo
  case case6 a b c d e f g h2 rest3 n hx4 hhi hx4b ih =>
    obtain ⟨s0, hscan, hs⟩ := scan_map_ok h
    obtain ⟨core0, hX, hsb⟩ := ih hscan
    refine ⟨'\\' :: 'u' :: a :: b :: c :: d :: core0,
      by simp only [List.cons_append]; rw [← hX], ?_⟩
    rw [hs]
    refine .ulone a b c d n hx4 hhi ?_ hsb
    intro e2 f2 g2 h22 t m2 hshape hx2
    rw [hshape] at hX
    have hij : e2 = e ∧ f2 = f ∧ g2 = g ∧ h22 = h2 := by
      have h5 := hX.symm
      simp only [List.cons_append, List.cons.injEq] at h5
      tauto
    obtain ⟨rfl, rfl, rfl, rfl⟩ := hij
    rw [hx2] at hx4b
    exact Option.noConfusion hx4b
  case case7 a b c d e f g h2 rest3 n hx4 hhi ih =>
    obtain ⟨s0, hscan, hs⟩ := scan_map_ok h
    obtain ⟨core0, hX, hsb⟩ := ih hscan
    refine ⟨'\\' :: 'u' :: a :: b :: c :: d :: core0,
      by simp only [List.cons_append]; rw [← hX], ?_⟩
    rw [hs]
    exact .uesc a b c d n hx4 hhi hsb
  case case9 a b c d rest2 hnopair n hx4 ih =>
    obtain ⟨s0, hscan, hs⟩ := scan_map_ok h
    obtain ⟨core0, hX, hsb⟩ := ih hscan
    refine ⟨'\\' :: 'u' :: a :: b :: c :: d :: core0,
      by simp only [List.cons_append]; rw [← hX], ?_⟩
    rw [hs]
    by_cases hhi : 0xD800 ≤ n ∧ n ≤ 0xDBFF
    · refine .ulone a b c d n hx4 hhi ?_ hsb
      intro e2 f2 g2 h22 t m2 hshape hmx
      rw [hshape] at hX
      refine absurd hX ?_
      intro hc
      exact hnopair e2 f2 g2 h22 (t ++ rest) (by simpa using hc)
    · exact .uesc a b c d n hx4 hhi hsb
  case case11 e rest2 hne1 hne2 hne3 ch hesc ih =>
    obtain ⟨s0, hscan, hs⟩ := scan_map_ok h
    obtain ⟨core0, hX, hsb⟩ := ih hscan
    refine ⟨'\\' :: e :: core0, by simp only [List.cons_append]; rw [← hX], ?_⟩
    rw [hs]
    exact .esc e ch hesc hsb
  case case15 c rest0 hq hp1 hp2 hp3 hp4 hp5 hctl ih =>
    obtain ⟨s0, hscan, hs⟩ := scan_map_ok h
    obtain ⟨core0, hX, hsb⟩ := ih hscan
    have hcq : c ≠ '"' := fun hc => hq hc
    have hcb : c ≠ '\\' := by
      intro hc
      cases hsplit : core0 ++ rest with
      | nil => exact absurd (List.append_eq_nil.mp hsplit).1 hsb.str_ne_nil
      | cons x t => exact hp4 x t hc (by rw [hX, hsplit])
    refine ⟨c :: core0, by simp only [List.cons_append]; rw [← hX], ?_⟩
    rw [hs]
    exact .norm c hcq hcb hctl hsb

/-! ## Number scanning versus `NumBody` -/

theorem span_digits {ds r : List Char} (hd : ∀ c ∈ ds, c.isDigit = true)
    (hr : ∀ c, r.head? = some c → c.isDigit = false) :
    (ds ++ r).takeWhile Char.isDigit = ds ∧ (ds ++ r).dropWhile Char.isDigit = r := by
  induction ds with
  | nil =>
    cases r with
    | nil => exact ⟨rfl, rfl⟩
    | cons c t =>
      have hc := hr c rfl
      exact ⟨by rw [List.nil_append, List.takeWhile_cons, if_neg (by simp [hc])],
        by rw [List.nil_append]; exact dropWhile_cons_neg hc⟩
  | cons c t ih =>
    have hc : c.isDigit = true := hd c (List.mem_cons_self c t)
    have iht := ih fun x hx => hd x (List.mem_cons_of_mem _ hx)
    constructor
    · rw [List.cons_append, List.takeWhile_cons, if_pos (by simp [hc]), iht.1]
    · rw [List.cons_append, List.dropWhile_cons, if_pos (by simp [hc]), iht.2]

theorem safe_head_not_digit {r : List Char} (h : safeTailB r) :
    ∀ c, r.head? = some c → c.isDigit = false := by
  intro c hc
  have := h c hc
  simp only [not_or] at this
  simpa using this.1

theorem scanSign_neg {c : Char} {t : List Char} (h : c ≠ '-') :
    scanSign (c :: t) = (false, c :: t) := by
  rw [scanSign]
  intro t' hc
  rw [List.cons.injEq] at hc
  exact h hc.1

theorem scanSign_sound {cs : List Char} :
    cs = (if (scanSign cs).1 then ['-'] else []) ++ (scanSign cs).2 := by
  cases cs with
  | nil => rfl
  | cons c t =>
    by_cases hc : c = '-'
    · subst hc; simp [scanSign]
    · rw [scanSign_neg hc]; rfl

theorem digit_facts {c : Char} (h : c.isDigit = true) :
    c ≠ '-' ∧ c ≠ '.' ∧ c ≠ 'e' ∧ c ≠ 'E' ∧ c ≠ '+' := by
  simp only [Char.isDigit, decide_eq_true_eq] at h
  refine ⟨?_, ?_, ?_, ?_, ?_⟩ <;> rintro rfl <;> revert h <;> decide

theorem one_nine_isDigit {c : Char} (h : '1' ≤ c ∧ c ≤ '9') : c.isDigit = true := by
  obtain ⟨h1, h2⟩ := h
  have hv1 : ('1' : Char).val ≤ c.val := h1
  have hv2 : c.val ≤ ('9' : Char).val := h2
  simp only [Char.isDigit, Bool.and_eq_true, decide_eq_true_eq]
  rw [UInt32.le_def, BitVec.le_def] at hv1 hv2
  have h48 : (UInt32.toBitVec 48).toNat = 48 := rfl
  have h49 : (('1' : Char).val.toBitVec).toNat = 49 := rfl
  have h57a : (('9' : Char).val.toBitVec).toNat = 57 := rfl
  have h57b : (UInt32.toBitVec 57).toNat = 57 := rfl
  refine ⟨?_, ?_⟩
  · show (48 : UInt32) ≤ c.val
    rw [UInt32.le_def, BitVec.le_def]
    omega
  · show c.val ≤ (57 : UInt32)
    rw [UInt32.le_def, BitVec.le_def]
    omega

theorem one_nine_ne_zero {c : Char} (h : '1' ≤ c ∧ c ≤ '9') : c ≠ '0' := by
  rintro rfl
  exact absurd h.1 (by decide)

theorem intPartShape_head {ids : List Char} (h : IntPartShape ids) :
    ∃ c t, ids = c :: t ∧ c.isDigit = true := by
  rcases h with rfl | ⟨c, ds, rfl, hc, _⟩
  · exact ⟨'0', [], rfl, by decide⟩
  · exact ⟨c, ds, rfl, one_nine_isDigit hc⟩

theorem scanIntPart_complete {ids rest' : List Char} (hi : IntPartShape ids)
    (hnd : ∀ c, rest'.head? = some c → c.isDigit = false) :
    scanIntPart (ids ++ rest') = some (ids, rest') := by
  rcases hi with rfl | ⟨c, ds, rfl, hc, hds⟩
  · simp [scanIntPart]
  · have hspan := span_digits hds hnd
    rw [List.cons_append, scanIntPart]
    · rw [if_pos hc, hspan.1, hspan.2]
    · exact fun h0 => one_nine_ne_zero hc h0

theorem scanIntPart_sound {cs1 ids cs2 : List Char}
    (h : scanIntPart cs1 = some (ids, cs2)) : cs1 = ids ++ cs2 ∧ IntPartShape ids := by
  cases cs1 with
  | nil => exact absurd h (by simp [scanIntPart])
  | cons c t =>
    by_cases hc : c = '0'
    · subst hc
      simp only [scanIntPart, Option.some.injEq, Prod.mk.injEq] at h
      obtain ⟨rfl, rfl⟩ := h
      exact ⟨rfl, Or.inl rfl⟩
    · rw [scanIntPart] at h
      · by_cases hr : '1' ≤ c ∧ c ≤ '9'
        · rw [if_pos hr] at h
          injection h with h'
          rw [Prod.mk.injEq] at h'
          obtain ⟨hids, hcs2⟩ := h'
          rw [← hids, ← hcs2]
          refine ⟨by rw [List.cons_append, List.takeWhile_append_dropWhile], Or.inr ?_⟩
          exact ⟨c, _, rfl, hr, fun x hx => List.mem_takeWhile_imp hx⟩
        · rw [if_neg hr] at h
          exact Option.noConfusion h
      · exact fun h0 => hc h0

theorem scanFrac_skip {cs2 : List Char} (h : ∀ c, cs2.head? = some c → c ≠ '.') :
    scanFrac cs2 = ([], cs2) := by
  cases cs2 with
  | nil => rfl
  | cons c t =>
    rw [scanFrac]
    intro u hcu
    exact absurd (List.cons.injEq .. ▸ hcu).1 (h c rfl)

theorem scanFrac_complete_dot {ds rest' : List Char} (hne : ds ≠ [])
    (hd : ∀ x ∈ ds, x.isDigit = true)
    (hnd : ∀ c, rest'.head? = some c → c.isDigit = false) :
    scanFrac ('.' :: (ds ++ rest')) = ('.' :: ds, rest') := by
  obtain ⟨d0, ds', rfl⟩ := List.exists_cons_of_ne_nil hne
  have hspan := span_digits hd hnd
  simp only [scanFrac]
  rw [if_pos ?_, hspan.1, hspan.2]
  simp [hd d0 (List.mem_cons_self d0 ds')]

theorem scanFrac_sound {cs2 : List Char} :
    cs2 = (scanFrac cs2).1 ++ (scanFrac cs2).2 ∧ FracShape (scanFrac cs2).1 := by
  cases cs2 with
  | nil => exact ⟨rfl, Or.inl rfl⟩
  | cons c t =>
    by_cases hc : c = '.'
    · subst hc
      simp only [scanFrac]
      by_cases hh : t.head?.any Char.isDigit = true
      · rw [if_pos hh]
        refine ⟨by simp [List.takeWhile_append_dropWhile], Or.inr ⟨_, rfl, ?_, ?_⟩⟩
        · cases t with
          | nil => simp at hh
          | cons d t' =>
            simp only [List.head?_cons, Option.any_some] at hh
            simp [List.takeWhile_cons, hh]
        · exact fun x hx => List.mem_takeWhile_imp hx
      · rw [if_neg hh]
        exact ⟨rfl, Or.inl rfl⟩
    · rw [scanFrac_skip (fun c' hc' => by
        rw [List.head?_cons, Option.some.injEq] at hc'
        rw [← hc']
        exact hc)]
      exact ⟨rfl, Or.inl rfl⟩

theorem scanExp_skip {cs3 : List Char} (h : ∀ c, cs3.head? = some c → c ≠ 'e' ∧ c ≠ 'E') :
    scanExp cs3 = ([], cs3) := by
  cases cs3 with
  | nil => rfl
  | cons c t =>
    cases t with
    | nil => rfl
    | cons s u2 =>
      simp only [scanExp]
      rw [if_neg]
      rcases h c rfl with ⟨h1, h2⟩
      simp [h1, h2]

theorem scanExp_complete {eds rest' : List Char} (he : ExpShape eds) (hne : eds ≠ [])
    (hnd : ∀ c, rest'.head? = some c → c.isDigit = false) :
    scanExp (eds ++ rest') = (eds, rest') := by
  rcases he with rfl | ⟨e0, sg, ds, he0, hdne, hds, hshape⟩
  · exact absurd rfl hne
  rcases hshape with ⟨rfl, rfl⟩ | ⟨hsg, rfl⟩
  · obtain ⟨d0, ds', rfl⟩ := List.exists_cons_of_ne_nil hdne
    have hd0 : d0.isDigit = true := hds d0 (List.mem_cons_self d0 ds')
    have hfacts := digit_facts hd0
    have hspan := span_digits hds hnd
    simp only [List.cons_append, scanExp]
    rw [if_pos he0, if_neg (by simp [hfacts.2.2.2.2, hfacts.1]), if_pos hd0]
    rw [List.cons_append] at hspan
    rw [hspan.1, hspan.2]
  · obtain ⟨d0, ds', rfl⟩ := List.exists_cons_of_ne_nil hdne
    have hd0 : d0.isDigit = true := hds d0 (List.mem_cons_self d0 ds')
    have hspan := span_digits hds hnd
    rcases hsg with rfl | rfl <;>
    · have hspan2 := hspan
      simp only [List.cons_append] at hspan2
      simp only [List.cons_append, List.append_assoc, List.singleton_append, List.nil_append,
        scanExp]
      rw [if_pos he0, if_pos (by simp), if_pos (by simp [hd0]), hspan2.1, hspan2.2]

theorem scanExp_sound {cs3 : List Char} :
    cs3 = (scanExp cs3).1 ++ (scanExp cs3).2 ∧ ExpShape (scanExp cs3).1 := by
  have hemp : cs3 = ([] : List Char) ++ cs3 := rfl
  cases cs3 with
  | nil => exact ⟨rfl, Or.inl rfl⟩
  | cons e t =>
    cases t with
    | nil => exact ⟨rfl, Or.inl rfl⟩
    | cons s u2 =>
      simp only [scanExp]
      by_cases he0 : e = 'e' ∨ e = 'E'
      · rw [if_pos he0]
        by_cases hsg : s = '+' ∨ s = '-'
        · rw [if_pos hsg]
          by_cases hh : u2.head?.any Char.isDigit = true
          · rw [if_pos hh]
            have hdne : u2.takeWhile Char.isDigit ≠ [] := by
              cases u2 with
              | nil => simp at hh
              | cons d t' =>
                simp only [List.head?_cons, Option.any_some] at hh
                simp [List.takeWhile_cons, hh]
            refine ⟨by simp [List.takeWhile_append_dropWhile], Or.inr ?_⟩
            refine ⟨e, [s], _, he0, hdne, fun x hx => List.mem_takeWhile_imp hx, Or.inr ⟨?_, rfl⟩⟩
            rcases hsg with rfl | rfl
            · exact Or.inl rfl
            · exact Or.inr rfl
          · rw [if_neg hh]; exact ⟨rfl, Or.inl rfl⟩
        · rw [if_neg hsg]
          by_cases hsd : s.isDigit = true
          · rw [if_pos hsd]
            have hdne : (s :: u2).takeWhile Char.isDigit ≠ [] := by
              simp [List.takeWhile_cons, hsd]
            refine ⟨by simp [List.takeWhile_append_dropWhile], Or.inr ?_⟩
            exact ⟨e, [], _, he0, hdne, fun x hx => List.mem_takeWhile_imp hx, Or.inl ⟨rfl, rfl⟩⟩
          · rw [if_neg hsd]; exact ⟨rfl, Or.inl rfl⟩
      · rw [if_neg he0]; exact ⟨rfl, Or.inl rfl⟩

theorem getLast?_append_ne {l1 l2 : List Char} (h : l2 ≠ []) :
    (l1 ++ l2).getLast? = l2.getLast? := by
  rw [List.getLast?_append]
  cases hl : l2.getLast? with
  | none => exact absurd (List.getLast?_eq_none_iff.mp hl) h
  | some a => rfl

theorem mem_of_getLast?_eq {l : List Char} {a : Char} (h : l.getLast? = some a) : a ∈ l := by
  have hne : l ≠ [] := by rintro rfl; simp at h
  have hg := List.getLast?_eq_getLast l hne
  rw [hg] at h
  injection h with h'
  rw [← h']
  exact List.getLast_mem hne

theorem getLast?_all_digit {ds : List Char} (hne : ds ≠ []) (hd : ∀ x ∈ ds, x.isDigit = true) :
    ∃ c, ds.getLast? = some c ∧ c.isDigit = true := by
  cases hl : ds.getLast? with
  | none => exact absurd (List.getLast?_eq_none_iff.mp hl) hne
  | some c => exact ⟨c, rfl, hd c (mem_of_getLast?_eq hl)⟩

theorem intPartShape_ne_nil {ids : List Char} (h : IntPartShape ids) : ids ≠ [] := by
  rcases h with rfl | ⟨c, ds, rfl, _, _⟩ <;> simp

theorem intPartShape_last {ids : List Char} (h : IntPartShape ids) :
    ∃ c, ids.getLast? = some c ∧ c.isDigit = true := by
  rcases h with rfl | ⟨c, ds, rfl, hc, hds⟩
  · exact ⟨'0', rfl, by decide⟩
  · cases ds with
    | nil => exact ⟨c, rfl, one_nine_isDigit hc⟩
    | cons d t =>
      obtain ⟨c', hc', hd'⟩ := getLast?_all_digit (by simp) hds
      exact ⟨c', by rw [show (c :: d :: t : List Char) = [c] ++ (d :: t) from rfl,
        getLast?_append_ne (by simp), hc'], hd'⟩

theorem heads_nondigit_e {eds rest' : List Char} (he : ExpShape eds) (hs : safeTailB rest') :
    ∀ c, (eds ++ rest').head? = some c → c.isDigit = false := by
  rcases he with rfl | ⟨e0, sg, ds, he0, hdne, hds, hshape⟩
  · exact fun c hc => safe_head_not_digit hs c hc
  · rcases hshape with ⟨hsg, rfl⟩ | ⟨hsg, rfl⟩ <;>
    · intro c hc
      simp only [List.cons_append, List.head?_cons, Option.some.injEq] at hc
      rcases he0 with rfl | rfl <;> rw [← hc] <;> decide

theorem heads_nondigit_fe {fds eds rest' : List Char} (hf : FracShape fds) (he : ExpShape eds)
    (hs : safeTailB rest') :
    ∀ c, (fds ++ (eds ++ rest')).head? = some c → c.isDigit = false := by
  rcases hf with rfl | ⟨ds, rfl, _, _⟩
  · simp only [List.nil_append]
    exact heads_nondigit_e he hs
  · intro c hc
    simp only [List.cons_append, List.head?_cons, Option.some.injEq] at hc
    rw [← hc]; decide

theorem head_ne_dot_e {eds rest' : List Char} (he : ExpShape eds) (hs : safeTailB rest') :
    ∀ c, (eds ++ rest').head? = some c → c ≠ '.' := by
  rcases he with rfl | ⟨e0, sg, ds, he0, hdne, hds, hshape⟩
  · intro c hc
    have := hs c hc
    simp only [not_or] at this
    exact this.2.1
  · rcases hshape with ⟨hsg, rfl⟩ | ⟨hsg, rfl⟩ <;>
    · intro c hc
      simp only [List.cons_append, List.head?_cons, Option.some.injEq] at hc
      rcases he0 with rfl | rfl <;> rw [← hc] <;> decide

theorem numTail_scan {ids fds eds rest' : List Char} (hi : IntPartShape ids) (hf : FracShape fds)
    (he : ExpShape eds) (hsafe : safeTailB rest') :
    scanIntPart (ids ++ (fds ++ (eds ++ rest'))) = some (ids, fds ++ (eds ++ rest')) ∧
    scanFrac (fds ++ (eds ++ rest')) = (fds, eds ++ rest') ∧
    scanExp (eds ++ rest') = (eds, rest') := by
  refine ⟨scanIntPart_complete hi (heads_nondigit_fe hf he hsafe), ?_, ?_⟩
  · rcases hf with rfl | ⟨ds, rfl, hdne, hds⟩
    · simp only [List.nil_append]
      exact scanFrac_skip (head_ne_dot_e he hsafe)
    · rw [List.cons_append]
      exact scanFrac_complete_dot hdne hds (heads_nondigit_e he hsafe)
  · rcases heq : eds with _ | ⟨e0, t⟩
    · simp only [List.nil_append]
      refine scanExp_skip ?_
      intro c hc
      have := hsafe c hc
      simp only [not_or] at this
      exact ⟨this.2.2.1, this.2.2.2.1⟩
    · rw [← heq]
      exact scanExp_complete he (by rw [heq]; simp) (safe_head_not_digit hsafe)

theorem numBody_build {neg : Bool} {ids fds eds : List Char}
    (hi : IntPartShape ids) (hf : FracShape fds) (he : ExpShape eds) :
    NumBody (numValue neg ids fds eds) ((if neg then ['-'] else []) ++ ids ++ fds ++ eds) := by
  obtain ⟨c0, t0, hids, hc0⟩ := intPartShape_head hi
  refine ⟨?_, ?_, ?_⟩
  · cases neg
    · refine ⟨c0, t0 ++ fds ++ eds, ?_, Or.inr hc0⟩
      simp [hids]
    · exact ⟨'-', ids ++ fds ++ eds, by simp, Or.inl rfl⟩
  · rcases he with rfl | ⟨e0, sg, ds, he0, hdne, hds, hshape⟩
    · rcases hf with rfl | ⟨ds, rfl, hdne, hds⟩
      · obtain ⟨c, hc, hd⟩ := intPartShape_last hi
        refine ⟨c, ?_, hd⟩
        rw [List.append_nil, List.append_nil, getLast?_append_ne (intPartShape_ne_nil hi), hc]
      · obtain ⟨c, hc, hd⟩ := getLast?_all_digit hdne hds
        refine ⟨c, ?_, hd⟩
        rw [List.append_nil, getLast?_append_ne (by simp),
          show ('.' :: ds : List Char) = ['.'] ++ ds from rfl, getLast?_append_ne hdne, hc]
    · obtain ⟨c, hc, hd⟩ := getLast?_all_digit hdne hds
      have heds : ∃ pre, eds = pre ++ ds := by
        rcases hshape with ⟨hsg, rfl⟩ | ⟨hsg, rfl⟩
        · exact ⟨[e0], rfl⟩
        · exact ⟨e0 :: sg, by simp⟩
      obtain ⟨pre, rfl⟩ := heds
      refine ⟨c, ?_, hd⟩
      rw [getLast?_append_ne (by intro hc2; rw [List.append_eq_nil] at hc2; exact hdne hc2.2),
        getLast?_append_ne hdne, hc]
  · intro rest' hsafe
    obtain ⟨hip, hfr, hex⟩ := numTail_scan hi hf he hsafe
    cases neg
    · have hlist : (((if false then ['-'] else []) ++ ids ++ fds ++ eds) ++ rest')
          = ids ++ (fds ++ (eds ++ rest')) := by simp
      rw [hlist]
      have hsgn : scanSign (ids ++ (fds ++ (eds ++ rest'))) =
          (false, ids ++ (fds ++ (eds ++ rest'))) := by
        rw [hids, List.cons_append]
        exact scanSign_neg (digit_facts hc0).1
      simp only [scanNumber, hsgn, hip, hfr, hex, numValue]
      split <;> rfl
    · have hlist : (((if true then ['-'] else []) ++ ids ++ fds ++ eds) ++ rest')
          = '-' :: (ids ++ (fds ++ (eds ++ rest'))) := by simp
      rw [hlist]
      have hsgn : scanSign ('-' :: (ids ++ (fds ++ (eds ++ rest')))) =
          (true, ids ++ (fds ++ (eds ++ rest'))) := by simp [scanSign]
      simp only [scanNumber, hsgn, hip, hfr, hex, numValue]
      split <;> rfl

theorem scanNumber_sound {cs : List Char} {v : JsonValue} {rest : List Char}
    (h : scanNumber cs = some (v, rest)) : ∃ core, cs = core ++ rest ∧ NumBody v core := by
  simp only [scanNumber] at h
  cases hip : scanIntPart (scanSign cs).2 with
  | none => rw [hip] at h; exact Option.noConfusion h
  | some p =>
    obtain ⟨ids, cs2⟩ := p
    rw [hip] at h
    obtain ⟨hdec1, hish⟩ := scanIntPart_sound hip
    obtain ⟨fds, cs3, hfr⟩ : ∃ f c, scanFrac cs2 = (f, c) := ⟨_, _, rfl⟩
    obtain ⟨eds, cs4, hexx⟩ : ∃ e c, scanExp cs3 = (e, c) := ⟨_, _, rfl⟩
    have h2 := @scanFrac_sound cs2
    rw [hfr] at h2
    have h3 := @scanExp_sound cs3
    rw [hexx] at h3
    simp only [hfr, hexx] at h
    have hbody := @numBody_build (scanSign cs).1 _ _ _ hish h2.2 h3.2
    have hcs : cs = ((if (scanSign cs).1 then ['-'] else []) ++ ids ++ fds ++ eds) ++ cs4 := by
      conv_lhs => rw [@scanSign_sound cs]
      rw [hdec1, h2.1, h3.1]
      simp [List.append_assoc]
    by_cases hc : fds = [] ∧ eds = []
    · rw [if_pos hc] at h
      injection h with h4
      rw [Prod.mk.injEq] at h4
      obtain ⟨hv, hr⟩ := h4
      refine ⟨_, by rw [← hr]; exact hcs, ?_⟩
      have hval : v = numValue (scanSign cs).1 ids fds eds := by
        rw [← hv]; simp [numValue, hc.1, hc.2]
      rw [hval]
      exact hbody
    · rw [if_neg hc] at h
      injection h with h4
      rw [Prod.mk.injEq] at h4
      obtain ⟨hv, hr⟩ := h4
      refine ⟨_, by rw [← hr]; exact hcs, ?_⟩
      have hval : v = numValue (scanSign cs).1 ids fds eds := by
        rw [← hv]; simp [numValue, hc]
      rw [hval]
      exact hbody

/-! ## Value scanning versus `JBody`/`JMembers`/`JElems` -/

theorem isDigit_ne_of {c d : Char} (h : c.isDigit = true) (hd : d.isDigit = false) : c ≠ d := by
  intro hcd
  rw [hcd] at h
  rw [h] at hd
  cases hd

theorem JBody.val_ne_nil {v : JsonValue} {core : List Char} (h : JBody v core) : core ≠ [] := by
  cases h with
  | num v core hn =>
    obtain ⟨⟨c, t, rfl, _⟩, _, _⟩ := hn
    simp
  | _ => simp

theorem JElems.elems_ne_nil {vs : List JsonValue} {core : List Char} (h : JElems vs core) :
    core ≠ [] := by
  cases h with
  | nil w hw => simp
  | cons w1 w2 vcore core2 v vs hw1 hw2 h1 h2 => simp

theorem JBody.head_shape {v : JsonValue} {core : List Char} (h : JBody v core) :
    ∃ c t, core = c :: t ∧ (c = '"' ∨ c = '{' ∨ c = '[' ∨ c = 'n' ∨ c = 't' ∨ c = 'f' ∨
      c = 'N' ∨ c = 'I' ∨ c = '-' ∨ c.isDigit = true) := by
  cases h with
  | str score s hs => exact ⟨'"', score, rfl, by tauto⟩
  | objEmpty w hw => exact ⟨'{', _, rfl, by tauto⟩
  | objMembers w core ms hw hm => exact ⟨'{', _, rfl, by tauto⟩
  | arrEmpty w hw => exact ⟨'[', _, rfl, by tauto⟩
  | arrElems w core1 core2 v vs hw h1 h2 => exact ⟨'[', _, rfl, by tauto⟩
  | nullLit => exact ⟨'n', _, rfl, by tauto⟩
  | trueLit => exact ⟨'t', _, rfl, by tauto⟩
  | falseLit => exact ⟨'f', _, rfl, by tauto⟩
  | num v core hn =>
    obtain ⟨⟨c, t, rfl, hc⟩, _, _⟩ := hn
    refine ⟨c, t, rfl, ?_⟩
    rcases hc with rfl | hc <;> tauto
  | nanLit => exact ⟨'N', _, rfl, by tauto⟩
  | infLit => exact ⟨'I', _, rfl, by tauto⟩
  | ninfLit => exact ⟨'-', _, rfl, by tauto⟩

theorem JBody.head_not_ws {v : JsonValue} {core : List Char} (h : JBody v core) :
    ∃ c t, core = c :: t ∧ isJsonWs c = false ∧ isPyWs c = false ∧ c ≠ ']' := by
  obtain ⟨c, t, rfl, hc⟩ := h.head_shape
  refine ⟨c, t, rfl, ?_, ?_, ?_⟩
  · rcases hc with rfl|rfl|rfl|rfl|rfl|rfl|rfl|rfl|rfl|hc
    all_goals first
      | decide
      | (cases hw : isJsonWs c with
         | false => rfl
         | true =>
           exfalso
           simp only [isJsonWs, Bool.or_eq_true, decide_eq_true_eq] at hw
           rcases hw with ((rfl|rfl)|rfl)|rfl <;> simp at hc)
  · rcases hc with rfl|rfl|rfl|rfl|rfl|rfl|rfl|rfl|rfl|hc
    all_goals first
      | decide
      | (cases hw : isPyWs c with
         | false => rfl
         | true =>
           exfalso
           simp only [isPyWs, Bool.or_eq_true, decide_eq_true_eq] at hw
           rcases hw with ((((rfl|rfl)|rfl)|rfl)|rfl)|rfl <;> simp at hc)
  · rcases hc with rfl|rfl|rfl|rfl|rfl|rfl|rfl|rfl|rfl|hc
    all_goals first
      | decide
      | exact isDigit_ne_of hc (by decide)

theorem safeTailB_cons_of {c : Char} {t : List Char}
    (h : ¬ (c.isDigit = true ∨ c = '.' ∨ c = 'e' ∨ c = 'E' ∨ c = '+' ∨ c = '-')) :
    safeTailB (c :: t) := by
  intro x hx
  simp only [List.head?_cons, Option.some.injEq] at hx
  rw [← hx]
  exact h

theorem JElems.safe_front {vs : List JsonValue} {core : List Char} (h : JElems vs core) :
    ∀ X, safeTailB (core ++ X) := by
  intro X
  cases h with
  | nil w hw =>
    simp only [List.append_assoc, List.singleton_append]
    exact safeTailB_ws_head hw (safeTailB_cons_of (by decide))
  | cons w1 w2 vcore core2 v vs hw1 hw2 h1 h2 =>
    simp only [List.append_assoc, List.cons_append]
    exact safeTailB_ws_head hw1 (safeTailB_cons_of (by decide))

theorem strBody_length_pos {core s : List Char} (h : StrBody core s) : 0 < core.length :=
  List.length_pos.mpr h.str_ne_nil

theorem scanNumber_nanHead {X : List Char} : scanNumber ('N' :: X) = none := by
  rw [scanNumber, scanSign_neg (by decide)]
  rw [scanIntPart]
  · rw [if_neg (by decide)]
  · exact fun h => absurd h (by decide)

theorem scanNumber_infHead {X : List Char} : scanNumber ('I' :: X) = none := by
  rw [scanNumber, scanSign_neg (by decide)]
  rw [scanIntPart]
  · rw [if_neg (by decide)]
  · exact fun h => absurd h (by decide)

theorem scanNumber_ninfHead {X : List Char} : scanNumber ('-' :: 'I' :: X) = none := by
  rw [scanNumber]
  have hsg : scanSign ('-' :: 'I' :: X) = (true, 'I' :: X) := by simp [scanSign]
  rw [hsg, scanIntPart]
  · rw [if_neg (by decide)]
  · exact fun h => absurd h (by decide)

/-- Completeness: a characterised core rescans in front of any safe tail,
at any sufficient fuel. -/
theorem scan_complete (fuel : Nat) :
    (∀ {v : JsonValue} {core : List Char}, JBody v core → ∀ rest', core.length < fuel →
      safeTailB rest' → scanValueF fuel (core ++ rest') = .ok (v, rest')) ∧
    (∀ {ms : List (String × JsonValue)} {core : List Char}, JMembers ms core → ∀ rest',
      core.length < fuel → scanMembersF fuel (core ++ rest') = .ok (ms, rest')) ∧
    (∀ {vs : List JsonValue} {core : List Char}, JElems vs core → ∀ rest',
      core.length < fuel → scanElemsTailF fuel (core ++ rest') = .ok (vs, rest')) := by
  induction fuel with
  | zero =>
    refine ⟨?_, ?_, ?_⟩
    · intro _ _ _ _ hlt; exact absurd hlt (Nat.not_lt_zero _)
    · intro _ _ _ _ hlt; exact absurd hlt (Nat.not_lt_zero _)
    · intro _ _ _ _ hlt; exact absurd hlt (Nat.not_lt_zero _)
  | succ f ih =>
    obtain ⟨ihv, ihm, ihe⟩ := ih
    refine ⟨?_, ?_, ?_⟩
    · intro v core h rest' hlt hsafe
      cases h with
      | str score s hs =>
        simp only [List.cons_append, scanValueF]
        rw [strBody_scan hs _ rest']
        rfl
      | objEmpty w hw =>
        simp only [List.cons_append, List.append_assoc, List.singleton_append, scanValueF]
        rw [skipWs_append_all hw, skipWs_cons_neg (by decide)]
        rfl
      | objMembers w core2 ms hw hm =>
        simp only [List.cons_append, List.append_assoc, scanValueF]
        rw [skipWs_append_all hw, skipWs_cons_neg (by decide)]
        simp only []
        rw [ihm hm rest' (by simp only [List.length_cons, List.length_append] at hlt; omega)]
        rfl
      | arrEmpty w hw =>
        simp only [List.cons_append, List.append_assoc, List.singleton_append, scanValueF]
        rw [skipWs_append_all hw, skipWs_cons_neg (by decide)]
        rfl
      | arrElems w core1 core2 v vs hw h1 h2 =>
        obtain ⟨c1, t1, hc1eq, hc1ws, _, hc1ne⟩ := h1.head_not_ws
        have h1pos : 0 < core1.length := List.length_pos.mpr h1.val_ne_nil
        have h2pos : 0 < core2.length := List.length_pos.mpr h2.elems_ne_nil
        have hskip : skipWs (w ++ (core1 ++ (core2 ++ rest'))) = core1 ++ (core2 ++ rest') := by
          rw [skipWs_append_all hw, hc1eq, List.cons_append]
          exact skipWs_cons_neg hc1ws
        simp only [List.cons_append, List.append_assoc, scanValueF]
        rw [hskip]
        have hl1 : core1.length < f := by
          simp only [List.length_cons, List.length_append] at hlt
          omega
        have hl2 : core2.length < f := by
          simp only [List.length_cons, List.length_append] at hlt
          omega
        split
        · rename_i r heq
          rw [hc1eq, List.cons_append] at heq
          rw [List.cons.injEq] at heq
          exact absurd heq.1 hc1ne
        · rw [ihv h1 (core2 ++ rest') hl1 (h2.safe_front rest')]
          simp only []
          rw [ihe h2 rest' hl2]
      | nullLit => simp [scanValueF, List.isPrefixOf]
      | trueLit => simp [scanValueF, List.isPrefixOf]
      | falseLit => simp [scanValueF, List.isPrefixOf]
      | num v core hn =>
        obtain ⟨⟨c0, t0, hcoreq, hc0⟩, _, hsub⟩ := hn
        have hscan := hsub rest' hsafe
        subst hcoreq
        have hqne : c0 ≠ '"' := by
          rcases hc0 with rfl | hc0
          · decide
          · exact isDigit_ne_of hc0 (by decide)
        have hbne : c0 ≠ '{' := by
          rcases hc0 with rfl | hc0
          · decide
          · exact isDigit_ne_of hc0 (by decide)
        have hkne : c0 ≠ '[' := by
          rcases hc0 with rfl | hc0
          · decide
          · exact isDigit_ne_of hc0 (by decide)
        have hnne : ('n' == c0) = false := by
          rcases hc0 with rfl | hc0
          · decide
          · exact beq_eq_false_iff_ne.mpr (isDigit_ne_of hc0 (by decide)).symm
        have htne : ('t' == c0) = false := by
          rcases hc0 with rfl | hc0
          · decide
          · exact beq_eq_false_iff_ne.mpr (isDigit_ne_of hc0 (by decide)).symm
        have hfne : ('f' == c0) = false := by
          rcases hc0 with rfl | hc0
          · decide
          · exact beq_eq_false_iff_ne.mpr (isDigit_ne_of hc0 (by decide)).symm
        simp only [List.cons_append] at hscan ⊢
        rw [scanValueF]
        · rw [if_neg (by simp [List.isPrefixOf, hnne]), if_neg (by simp [List.isPrefixOf, htne]),
            if_neg (by simp [List.isPrefixOf, hfne]), hscan]
        · exact fun hc => hqne hc
        · exact fun hc => hbne hc
        · exact fun hc => hkne hc
      | nanLit =>
        simp only [List.cons_append, scanValueF]
        rw [if_neg (by simp [List.isPrefixOf]), if_neg (by simp [List.isPrefixOf]),
          if_neg (by simp [List.isPrefixOf]), scanNumber_nanHead]
        simp [List.isPrefixOf]
      | infLit =>
        simp only [List.cons_append, scanValueF]
        rw [if_neg (by simp [List.isPrefixOf]), if_neg (by simp [List.isPrefixOf]),
          if_neg (by simp [List.isPrefixOf]), scanNumber_infHead]
        simp [List.isPrefixOf]
      | ninfLit =>
        simp only [List.cons_append, scanValueF]
        rw [if_neg (by simp [List.isPrefixOf]), if_neg (by simp [List.isPrefixOf]),
          if_neg (by simp [List.isPrefixOf]), scanNumber_ninfHead]
        simp [List.isPrefixOf]
    · intro ms core h rest' hlt
      cases h with
      | last kcore kcs w1 w2 w3 vcore v hk hw1 hw2 hw3 hv =>
        obtain ⟨c1, t1, hc1eq, hc1ws, _, _⟩ := hv.head_not_ws
        have hvpos : 0 < vcore.length := List.length_pos.mpr hv.val_ne_nil
        have hkpos : 0 < kcore.length := strBody_length_pos hk
        simp only [List.append_assoc, List.cons_append, List.singleton_append,
          List.nil_append, scanMembersF]
        rw [strBody_scan hk _ _]
        simp only []
        rw [skipWs_append_all hw1, skipWs_cons_neg (by decide)]
        simp only []
        have hskip : skipWs (w2 ++ (vcore ++ (w3 ++ '}' :: rest')))
            = vcore ++ (w3 ++ '}' :: rest') := by
          rw [skipWs_append_all hw2, hc1eq, List.cons_append]
          exact skipWs_cons_neg hc1ws
        rw [hskip]
        have hlv : vcore.length < f := by
          simp only [List.length_append, List.length_cons] at hlt
          omega
        rw [ihv hv (w3 ++ '}' :: rest') hlv
          (safeTailB_ws_head hw3 (safeTailB_cons_of (by decide)))]
        simp only []
        rw [skipWs_append_all hw3, skipWs_cons_neg (by decide)]
        rfl
      | cons kcore kcs w1 w2 w3 w4 vcore core2 v ms hk hw1 hw2 hw3 hw4 hv hm =>
        obtain ⟨c1, t1, hc1eq, hc1ws, _, _⟩ := hv.head_not_ws
        have hvpos : 0 < vcore.length := List.length_pos.mpr hv.val_ne_nil
        have hkpos : 0 < kcore.length := strBody_length_pos hk
        simp only [List.append_assoc, List.cons_append, List.singleton_append, scanMembersF]
        rw [strBody_scan hk _ _]
        simp only []
        rw [skipWs_append_all hw1, skipWs_cons_neg (by decide)]
        simp only []
        have hskip : skipWs (w2 ++ (vcore ++ (w3 ++ ',' :: (w4 ++ '"' :: (core2 ++ rest')))))
            = vcore ++ (w3 ++ ',' :: (w4 ++ '"' :: (core2 ++ rest'))) := by
          rw [skipWs_append_all hw2, hc1eq, List.cons_append]
          exact skipWs_cons_neg hc1ws
        rw [hskip]
        have hlv : vcore.length < f := by
          simp only [List.length_append, List.length_cons] at hlt
          omega
        rw [ihv hv (w3 ++ ',' :: (w4 ++ '"' :: (core2 ++ rest'))) hlv
          (safeTailB_ws_head hw3 (safeTailB_cons_of (by decide)))]
        simp only []
        rw [skipWs_append_all hw3, skipWs_cons_neg (by decide)]
        simp only []
        rw [skipWs_append_all hw4, skipWs_cons_neg (by decide)]
        simp only []
        rw [ihm hm rest' (by simp only [List.length_append, List.length_cons] at hlt; omega)]
    · intro vs core h rest' hlt
      cases h with
      | nil w hw =>
        simp only [List.append_assoc, List.singleton_append, scanElemsTailF]
        rw [skipWs_append_all hw, skipWs_cons_neg (by decide)]
        rfl
      | cons w1 w2 vcore core2 v vs hw1 hw2 h1 h2 =>
        obtain ⟨c1, t1, hc1eq, hc1ws, _, _⟩ := h1.head_not_ws
        have h1pos : 0 < vcore.length := List.length_pos.mpr h1.val_ne_nil
        have h2pos : 0 < core2.length := List.length_pos.mpr h2.elems_ne_nil
        simp only [List.append_assoc, List.cons_append, scanElemsTailF]
        rw [skipWs_append_all hw1, skipWs_cons_neg (by decide)]
        simp only []
        have hskip : skipWs (w2 ++ (vcore ++ (core2 ++ rest'))) = vcore ++ (core2 ++ rest') := by
          rw [skipWs_append_all hw2, hc1eq, List.cons_append]
          exact skipWs_cons_neg hc1ws
        rw [hskip]
        have hlv : vcore.length < f := by
          simp only [List.length_append, List.length_cons] at hlt
          omega
        have hl2 : core2.length < f := by
          simp only [List.length_append, List.length_cons] at hlt
          omega
        rw [ihv h1 (core2 ++ rest') hlv (h2.safe_front rest')]
        simp only []
        rw [ihe h2 rest' hl2]

/-! ## Last-character shape of parsed cores, and `strip` algebra -/

theorem digit_not_pyws {c : Char} (h : c.isDigit = true) : isPyWs c = false := by
  cases hw : isPyWs c
  · rfl
  · exfalso
    simp only [isPyWs, Bool.or_eq_true, decide_eq_true_eq] at hw
    rcases hw with ((((rfl | rfl) | rfl) | rfl) | rfl) | rfl <;> exact absurd h (by decide)

theorem jmembers_last_aux : ∀ n : Nat, ∀ {ms : List (String × JsonValue)} {core : List Char},
    core.length ≤ n → JMembers ms core → core.getLast? = some '}' := by
  intro n
  induction n with
  | zero =>
    intro ms core hle h
    cases h <;> (simp only [List.length_append, List.length_cons] at hle; omega)
  | succ k ih =>
    intro ms core hle h
    cases h with
    | last kcore kcs w1 w2 w3 vcore v hk hw1 hw2 hw3 hv =>
      rw [show kcore ++ w1 ++ ':' :: w2 ++ vcore ++ w3 ++ ['}']
          = (kcore ++ w1 ++ ':' :: w2 ++ vcore ++ w3) ++ ['}'] from by simp,
        getLast?_append_ne (by simp)]
      rfl
    | cons kcore kcs w1 w2 w3 w4 vcore core2 v ms2 hk hw1 hw2 hw3 hw4 hv hm =>
      have hk2 : core2.length ≤ k := by
        have := strBody_length_pos hk
        simp only [List.length_append, List.length_cons] at hle
        omega
      have h2 := ih hk2 hm
      have hne : core2 ≠ [] := by intro hnil; rw [hnil] at h2; simp at h2
      rw [show kcore ++ w1 ++ ':' :: w2 ++ vcore ++ w3 ++ ',' :: w4 ++ '"' :: core2
          = (kcore ++ w1 ++ ':' :: w2 ++ vcore ++ w3 ++ ',' :: w4 ++ ['"']) ++ core2 from by simp,
        getLast?_append_ne hne, h2]

theorem jelems_last_aux : ∀ n : Nat, ∀ {vs : List JsonValue} {core : List Char},
    core.length ≤ n → JElems vs core → core.getLast? = some ']' := by
  intro n
  induction n with
  | zero =>
    intro vs core hle h
    cases h <;> (simp only [List.length_append, List.length_cons] at hle; omega)
  | succ k ih =>
    intro vs core hle h
    cases h with
    | nil w hw =>
      rw [getLast?_append_ne (by simp)]
      rfl
    | cons w1 w2 vcore core2 v vs2 hw1 hw2 h1 h2 =>
      have h1pos : 0 < vcore.length := List.length_pos.mpr h1.val_ne_nil
      have hk2 : core2.length ≤ k := by
        simp only [List.length_append, List.length_cons] at hle
        omega
      have hl := ih hk2 h2
      rw [show w1 ++ ',' :: w2 ++ vcore ++ core2 = (w1 ++ ',' :: w2 ++ vcore) ++ core2 from by simp,
        getLast?_append_ne h2.elems_ne_nil, hl]

theorem JBody.last_not_pyws {v : JsonValue} {core : List Char} (h : JBody v core) :
    ∃ d, core.getLast? = some d ∧ isPyWs d = false := by
  cases h with
  | str score s hs =>
    refine ⟨'"', ?_, by decide⟩
    rw [show ('"' :: score : List Char) = ['"'] ++ score from rfl,
      getLast?_append_ne hs.str_ne_nil, hs.last_quote]
  | objEmpty w hw =>
    refine ⟨'}', ?_, by decide⟩
    rw [show '{' :: w ++ ['}'] = ('{' :: w) ++ ['}'] from by simp, getLast?_append_ne (by simp)]
    rfl
  | objMembers w core2 ms hw hm =>
    have h2 := jmembers_last_aux core2.length (le_refl _) hm
    have hne : core2 ≠ [] := by intro hnil; rw [hnil] at h2; simp at h2
    refine ⟨'}', ?_, by decide⟩
    rw [show '{' :: w ++ '"' :: core2 = ('{' :: w ++ ['"']) ++ core2 from by simp,
      getLast?_append_ne hne, h2]
  | arrEmpty w hw =>
    refine ⟨']', ?_, by decide⟩
    rw [show '[' :: w ++ [']'] = ('[' :: w) ++ [']'] from by simp, getLast?_append_ne (by simp)]
    rfl
  | arrElems w core1 core2 v vs hw h1 h2 =>
    have hl := jelems_last_aux core2.length (le_refl _) h2
    refine ⟨']', ?_, by decide⟩
    rw [show '[' :: w ++ core1 ++ core2 = ('[' :: w ++ core1) ++ core2 from by simp,
      getLast?_append_ne h2.elems_ne_nil, hl]
  | nullLit => exact ⟨'l', by decide, by decide⟩
  | trueLit => exact ⟨'e', by decide, by decide⟩
  | falseLit => exact ⟨'e', by decide, by decide⟩
  | num v core hn =>
    obtain ⟨_, ⟨d, hd, hdig⟩, _⟩ := hn
    exact ⟨d, hd, digit_not_pyws hdig⟩
  | nanLit => exact ⟨'N', by decide, by decide⟩
  | infLit => exact ⟨'y', by decide, by decide⟩
  | ninfLit => exact ⟨'y', by decide, by decide⟩

theorem pyStripList_of_ends {cs : List Char} {c d : Char} (hh : cs.head? = some c)
    (hc : isPyWs c = false) (hl : cs.getLast? = some d) (hd : isPyWs d = false) :
    pyStripList cs = cs := by
  cases cs with
  | nil => simp at hh
  | cons a t =>
    simp only [List.head?_cons, Option.some.injEq] at hh
    subst hh
    obtain ⟨ys, hy⟩ := List.getLast?_eq_some_iff.mp hl
    unfold pyStripList
    rw [dropWhile_cons_neg hc, hy, rdropWhileP_last_neg hd]

theorem rdropWhileP_isPrefix (p : Char → Bool) (l : List Char) : rdropWhileP p l <+: l := by
  have h := List.dropWhile_suffix (l := l.reverse) p
  have h2 := List.reverse_prefix.mpr h
  simpa [rdropWhileP] using h2

theorem pyStripList_head_false {cs : List Char} {a : Char} {t : List Char}
    (h : pyStripList cs = a :: t) : isPyWs a = false := by
  have hp : rdropWhileP isPyWs (cs.dropWhile isPyWs) <+: cs.dropWhile isPyWs :=
    rdropWhileP_isPrefix _ _
  unfold pyStripList at h
  rw [h] at hp
  obtain ⟨r, hr⟩ := hp
  have hd : cs.dropWhile isPyWs = a :: (t ++ r) := by
    rw [← hr]
    simp
  exact dropWhile_head_false cs hd

theorem pyStripList_last_false {cs : List Char} {a : Char} {t : List Char}
    (h : pyStripList cs = a :: t) :
    ∃ d, (a :: t).getLast? = some d ∧ isPyWs d = false := by
  unfold pyStripList rdropWhileP at h
  have h2 : (cs.dropWhile isPyWs).reverse.dropWhile isPyWs = (a :: t).reverse := by
    rw [← h, List.reverse_reverse]
  cases hr : (a :: t).reverse with
  | nil => simp at hr
  | cons b r =>
    rw [hr] at h2
    refine ⟨b, ?_, dropWhile_head_false _ h2⟩
    rw [List.getLast?_eq_head?_reverse, hr]
    rfl

theorem pyStripList_idem (cs : List Char) : pyStripList (pyStripList cs) = pyStripList cs := by
  cases h : pyStripList cs with
  | nil => rfl
  | cons a t =>
    obtain ⟨d, hd, hdf⟩ := pyStripList_last_false h
    exact pyStripList_of_ends (by simp) (pyStripList_head_false h) hd hdf

theorem pyStrip_idem (s : String) : pyStrip (pyStrip s) = pyStrip s :=
  congrArg String.mk (pyStripList_idem s.data)

/-! ## `json.loads` on characterised cores -/

theorem jsonLoadsRaw_of_JBody {v : JsonValue} {core : List Char} (h : JBody v core) :
    jsonLoadsRaw core = .ok v := by
  obtain ⟨c, t, rfl, hcw, _, _⟩ := h.head_not_ws
  simp only [jsonLoadsRaw]
  rw [skipWs_cons_neg hcw]
  have hc := (scan_complete ((c :: t).length + 1)).1 h [] (Nat.lt_succ_self _) safeTailB_nil
  rw [List.append_nil] at hc
  rw [hc]
  rfl

theorem jsonLoads_of_JBody {v : JsonValue} {core : List Char} (h : JBody v core) :
    jsonLoads ⟨core⟩ = .ok v := by
  unfold jsonLoads
  rw [show (⟨core⟩ : String).data = core from rfl, jsonLoadsRaw_of_JBody h]

theorem interpretResponse_of_JBody {v : JsonValue} {core : List Char} (h : JBody v core) :
    interpretResponse ⟨core⟩ = .ok v := by
  unfold interpretResponse
  rw [jsonLoads_of_JBody h]

theorem pyStrip_of_JBody {v : JsonValue} {core : List Char} (h : JBody v core) :
    pyStrip ⟨core⟩ = ⟨core⟩ := by
  obtain ⟨c, t, hceq, _, hcp, _⟩ := h.head_not_ws
  obtain ⟨d, hdl, hdp⟩ := h.last_not_pyws
  exact congrArg String.mk (pyStripList_of_ends (by rw [hceq]; rfl) hcp hdl hdp)

theorem analyze_of_JBody {v : JsonValue} {core : List Char} (h : JBody v core) :
    analyze_and_reply true (.ok ⟨core⟩) = v := by
  have hi : interpretResponse (pyStrip ⟨core⟩) = .ok v := by
    rw [pyStrip_of_JBody h]
    exact interpretResponse_of_JBody h
  simp [analyze_and_reply, hi]

/-! ## Fence repair: backquote-headed text never parses, and the repair
pass peels a backquote fence down to its payload -/

theorem scanNumber_backquote {X : List Char} : scanNumber (backquote :: X) = none := by
  rw [scanNumber, scanSign_neg (by decide)]
  rw [scanIntPart]
  · rw [if_neg (by decide)]
  · exact fun h => absurd h (by decide)

theorem scanValueF_backquote (fuel : Nat) (cs : List Char) :
    scanValueF fuel (backquote :: cs) = .error ⟨.expectingValue, cs.length + 1⟩ := by
  have hn : ('n' == backquote) = false := by decide
  have ht : ('t' == backquote) = false := by decide
  have hf : ('f' == backquote) = false := by decide
  have hN : ('N' == backquote) = false := by decide
  have hI : ('I' == backquote) = false := by decide
  have hm : ('-' == backquote) = false := by decide
  cases fuel with
  | zero => simp [scanValueF]
  | succ f =>
    rw [scanValueF]
    · simp [List.isPrefixOf, hn, ht, hf, hN, hI, hm, scanNumber_backquote]
    · exact fun hc => absurd hc (by decide)
    · exact fun hc => absurd hc (by decide)
    · exact fun hc => absurd hc (by decide)

theorem jsonLoads_backquote {t : List Char} :
    ∃ m, jsonLoads ⟨backquote :: t⟩ = .error m := by
  unfold jsonLoads
  simp only [jsonLoadsRaw]
  rw [skipWs_cons_neg (by decide), scanValueF_backquote]
  exact ⟨_, rfl⟩

theorem jsonLoadsRaw_pad {v : JsonValue} {core : List Char} (h : JBody v core)
    (w1 w2 : List Char) (hw1 : allJsonWs w1) (hw2 : allJsonWs w2) :
    jsonLoadsRaw (w1 ++ core ++ w2) = .ok v := by
  obtain ⟨c, t, hceq, hcw, _, _⟩ := h.head_not_ws
  simp only [jsonLoadsRaw]
  have hskip : skipWs (w1 ++ (core ++ w2)) = core ++ w2 := by
    rw [skipWs_append_all hw1, hceq, List.cons_append]
    exact skipWs_cons_neg hcw
  rw [List.append_assoc, hskip]
  have hs : safeTailB w2 := by
    have h2 := safeTailB_ws_head hw2 safeTailB_nil
    rwa [List.append_nil] at h2
  have hc := (scan_complete ((core ++ w2).length + 1)).1 h w2
    (by simp only [List.length_append]; omega) hs
  rw [hc]
  simp only []
  rw [skipWs_all_nil hw2]
  rfl

theorem jsonLoads_pad {v : JsonValue} {core : List Char} (h : JBody v core)
    (w1 w2 : List Char) (hw1 : allJsonWs w1) (hw2 : allJsonWs w2) :
    jsonLoads ⟨w1 ++ core ++ w2⟩ = .ok v := by
  unfold jsonLoads
  rw [show (String.mk (w1 ++ core ++ w2)).data = w1 ++ core ++ w2 from rfl,
    jsonLoadsRaw_pad h w1 w2 hw1 hw2]

theorem repair_fence_json {core : List Char} {c0 d0 : Char} {t0 : List Char}
    (hceq : core = c0 :: t0) (hcp : isPyWs c0 = false)
    (hdl : core.getLast? = some d0) (hdp : isPyWs d0 = false) :
    repairClean ⟨backquote :: backquote :: backquote :: 'j' :: 's' :: 'o' :: 'n' :: '\n' ::
      (core ++ '\n' :: backquote :: backquote :: backquote :: [])⟩ = ⟨core⟩ := by
  set F : List Char := backquote :: backquote :: backquote :: 'j' :: 's' :: 'o' :: 'n' :: '\n' ::
    (core ++ '\n' :: backquote :: backquote :: backquote :: []) with hF
  have hstrip : pyStrip ⟨F⟩ = ⟨F⟩ := by
    refine congrArg String.mk (pyStripList_of_ends (c := backquote) (d := backquote) rfl
      (by decide) ?_ (by decide))
    rw [show F = (backquote :: backquote :: backquote :: 'j' :: 's' :: 'o' :: 'n' :: '\n' ::
        (core ++ ['\n', backquote, backquote])) ++ [backquote] from by simp [hF],
      getLast?_append_ne (by simp)]
    rfl
  have hpre : List.isPrefixOf "```".data (String.mk F).data = true := by
    rw [List.isPrefixOf_iff_prefix]
    exact ⟨'j' :: 's' :: 'o' :: 'n' :: '\n' ::
      (core ++ '\n' :: backquote :: backquote :: backquote :: []), rfl⟩
  have hc2 : pyStripBackquotes ⟨F⟩ = ⟨'j' :: 's' :: 'o' :: 'n' :: '\n' :: (core ++ ['\n'])⟩ := by
    refine congrArg String.mk ?_
    show rdropWhileP (· = backquote) ((String.mk F).data.dropWhile (· = backquote))
      = 'j' :: 's' :: 'o' :: 'n' :: '\n' :: (core ++ ['\n'])
    rw [show (String.mk F).data = [backquote, backquote, backquote] ++
        ('j' :: 's' :: 'o' :: 'n' :: '\n' :: (core ++ '\n' :: backquote :: backquote ::
          backquote :: [])) from by simp [hF]]
    rw [dropWhile_append_all (by intro c hc; fin_cases hc <;> decide),
      dropWhile_cons_neg (by decide)]
    rw [show 'j' :: 's' :: 'o' :: 'n' :: '\n' :: (core ++ '\n' :: backquote :: backquote ::
        backquote :: []) = ('j' :: 's' :: 'o' :: 'n' :: '\n' :: core) ++ '\n' ::
        [backquote, backquote, backquote] from by simp]
    rw [rdropWhileP_mid (by decide) (by intro x hx; fin_cases hx <;> decide)]
    simp
  have hjson : List.isPrefixOf "json".data
      (pyLower ⟨'j' :: 's' :: 'o' :: 'n' :: '\n' :: (core ++ ['\n'])⟩).data = true := by
    rw [List.isPrefixOf_iff_prefix]
    exact ⟨List.map Char.toLower ('\n' :: (core ++ ['\n'])), rfl⟩
  have hdrop : pyDrop ⟨'j' :: 's' :: 'o' :: 'n' :: '\n' :: (core ++ ['\n'])⟩ 4
      = ⟨'\n' :: (core ++ ['\n'])⟩ := rfl
  have hstrip2 : pyStrip ⟨'\n' :: (core ++ ['\n'])⟩ = ⟨core⟩ := by
    refine congrArg String.mk ?_
    show pyStripList ('\n' :: (core ++ ['\n'])) = core
    unfold pyStripList
    rw [List.dropWhile_cons, if_pos (by decide)]
    rw [hceq, List.cons_append, dropWhile_cons_neg hcp, ← List.cons_append, ← hceq]
    obtain ⟨ys, hys⟩ := List.getLast?_eq_some_iff.mp hdl
    rw [hys, show (ys ++ [d0]) ++ ['\n'] = ys ++ d0 :: ['\n'] from by simp,
      rdropWhileP_mid hdp (by intro x hx; fin_cases hx <;> decide)]
  simp only [repairClean]
  rw [hstrip, if_pos hpre, hc2, if_pos hjson, hdrop, hstrip2]

theorem repair_fence_plain {core : List Char} {c0 d0 : Char} {t0 : List Char}
    (hceq : core = c0 :: t0) (hcp : isPyWs c0 = false)
    (hdl : core.getLast? = some d0) (hdp : isPyWs d0 = false) :
    repairClean ⟨backquote :: backquote :: backquote :: '\n' ::
      (core ++ '\n' :: backquote :: backquote :: backquote :: [])⟩
      = ⟨'\n' :: (core ++ ['\n'])⟩ := by
  set F : List Char := backquote :: backquote :: backquote :: '\n' ::
    (core ++ '\n' :: backquote :: backquote :: backquote :: []) with hF
  have hstrip : pyStrip ⟨F⟩ = ⟨F⟩ := by
    refine congrArg String.mk (pyStripList_of_ends (c := backquote) (d := backquote) rfl
      (by decide) ?_ (by decide))
    rw [show F = (backquote :: backquote :: backquote :: '\n' ::
        (core ++ ['\n', backquote, backquote])) ++ [backquote] from by simp [hF],
      getLast?_append_ne (by simp)]
    rfl
  have hpre : List.isPrefixOf "```".data (String.mk F).data = true := by
    rw [List.isPrefixOf_iff_prefix]
    exact ⟨'\n' :: (core ++ '\n' :: backquote :: backquote :: backquote :: []), rfl⟩
  have hc2 : pyStripBackquotes ⟨F⟩ = ⟨'\n' :: (core ++ ['\n'])⟩ := by
    refine congrArg String.mk ?_
    show rdropWhileP (· = backquote) ((String.mk F).data.dropWhile (· = backquote))
      = '\n' :: (core ++ ['\n'])
    rw [show (String.mk F).data = [backquote, backquote, backquote] ++
        ('\n' :: (core ++ '\n' :: backquote :: backquote :: backquote :: [])) from by
          simp [hF]]
    rw [dropWhile_append_all (by intro c hc; fin_cases hc <;> decide),
      dropWhile_cons_neg (by decide)]
    rw [show '\n' :: (core ++ '\n' :: backquote :: backquote :: backquote :: [])
        = ('\n' :: core) ++ '\n' :: [backquote, backquote, backquote] from by simp]
    rw [rdropWhileP_mid (by decide) (by intro x hx; fin_cases hx <;> decide)]
    simp
  have hjson : List.isPrefixOf "json".data
      (pyLower ⟨'\n' :: (core ++ ['\n'])⟩).data = false := by
    rw [show (pyLower ⟨'\n' :: (core ++ ['\n'])⟩).data
        = '\n' :: List.map Char.toLower (core ++ ['\n']) from rfl]
    rw [show "json".data = 'j' :: ['s', 'o', 'n'] from rfl]
    simp [List.isPrefixOf]
  simp only [repairClean]
  rw [hstrip, if_pos hpre, hc2, if_neg (by rw [hjson]; exact Bool.false_ne_true)]

/-! ## Claim C1 -/

theorem errPrefix_append (e : String) :
    List.isPrefixOf "Error".data ("Error while calling OpenAI API: " ++ e).data = true := by
  rw [List.isPrefixOf_iff_prefix, strData_append]
  have h : "Error".data <+: "Error while calling OpenAI API: ".data :=
    List.isPrefixOf_iff_prefix.mp (by rfl)
  exact h.trans (List.prefix_append _ _)

/-- C1 (amended): when both the direct parse and the repaired parse of the
response fail, `analyze_and_reply` returns an error *string* — the same
`"Error while calling OpenAI API: "` shape as a provider error, carrying
the JSON decoder's message rather than the raw response text — and never
a partial object. -/
theorem c1_malformed_error_shape (content m1 m2 : String)
    (h1 : jsonLoads (pyStrip content) = .error m1)
    (h2 : jsonLoads (repairClean (pyStrip content)) = .error m2) :
    analyze_and_reply true (.ok content) = .str ("Error while calling OpenAI API: " ++ m2) := by
  simp [analyze_and_reply, interpretResponse, h1, h2]

/-- C1 (witness): the concrete unparseable response `"hello"`. -/
theorem c1_malformed_error_shape_witness :
    analyze_and_reply true (.ok "hello")
      = .str ("Error while calling OpenAI API: "
          ++ "Expecting value: line 1 column 1 (char 0)") :=
  c1_malformed_error_shape "hello" "Expecting value: line 1 column 1 (char 0)"
    "Expecting value: line 1 column 1 (char 0)" rfl rfl

set_option maxRecDepth 4000 in
/-- C1 (counterexample): for the unparseable response `"hello"`, the failure
result is *identical* to a provider-error result (so not a distinct error
kind), and the raw text `hello` does not occur anywhere in it. -/
theorem c1_counterexample :
    analyze_and_reply true (.ok "hello")
        = analyze_and_reply true (.error "Expecting value: line 1 column 1 (char 0)") ∧
    ¬ ("hello".data <:+: (resultText (analyze_and_reply true (.ok "hello"))).data) := by
  exact ⟨rfl, by decide⟩

/-! ## Claim C3 -/

/-- C3: for every successfully parsed response object, each missing optional
member is defaulted independently of the others: `summary` to `""`,
`action_items` and `replies` to empty lists, and `language`, `urgency`,
`sentiment`, `category` to the `"N/A"` placeholder. -/
theorem c3_field_defaults (ms : List (String × JsonValue)) :
    (dictGet ms "language" = none → (render_analysis ms).language = .str "N/A") ∧
    (dictGet ms "urgency" = none → (render_analysis ms).urgency = .str "N/A") ∧
    (dictGet ms "sentiment" = none → (render_analysis ms).sentiment = .str "N/A") ∧
    (dictGet ms "category" = none → (render_analysis ms).category = .str "N/A") ∧
    (dictGet ms "summary" = none → (render_analysis ms).summary = .str "") ∧
    (dictGet ms "action_items" = none → (render_analysis ms).action_items = .arr []) ∧
    (dictGet ms "replies" = none → (render_analysis ms).replies = .arr []) := by
  refine ⟨?_, ?_, ?_, ?_, ?_, ?_, ?_⟩ <;> (intro h; simp [render_analysis, orDefault, h])

/-- C3 (witness): the empty parsed object displays all seven defaults. -/
theorem c3_field_defaults_witness :
    (render_analysis []).language = .str "N/A" ∧ (render_analysis []).urgency = .str "N/A" ∧
    (render_analysis []).sentiment = .str "N/A" ∧ (render_analysis []).category = .str "N/A" ∧
    (render_analysis []).summary = .str "" ∧ (render_analysis []).action_items = .arr [] ∧
    (render_analysis []).replies = .arr [] := by
  obtain ⟨h1, h2, h3, h4, h5, h6, h7⟩ := c3_field_defaults []
  exact ⟨h1 rfl, h2 rfl, h3 rfl, h4 rfl, h5 rfl, h6 rfl, h7 rfl⟩

/-! ## Claim C4 -/

/-- C4: submitting an email text that is empty or all-whitespace produces the
validation warning (so no completion call is issued and the session stays
idle), whatever the client configuration and provider would have done. -/
theorem c4_blank_input_no_call (email_text : String) (clientConfigured : Bool)
    (provider : Except String String) (h : ∀ c ∈ email_text.data, isPyWs c = true) :
    analyze_button_handler email_text clientConfigured provider
      = .validationWarning
          "Please paste an email or load one from Gmail before generating replies." := by
  have hlist : pyStripList email_text.data = [] := by
    unfold pyStripList
    rw [dropWhile_all_nil h]
    rfl
  have hs : pyStrip email_text = "" := congrArg String.mk hlist
  simp [analyze_button_handler, hs]

/-- C4 (witness): the whitespace-only input `" \t\n"`. -/
theorem c4_blank_input_no_call_witness :
    analyze_button_handler " \t\n" true (.ok "x")
      = .validationWarning
          "Please paste an email or load one from Gmail before generating replies." :=
  c4_blank_input_no_call " \t\n" true (.ok "x") (by decide)

/-! ## Claim C8 -/

/-- C8 (counterexample): the response `"[1, 2]"` parses to a JSON *list*,
which `analyze_and_reply` returns as a success — neither a dict nor an
error string beginning `Error`. -/
theorem c8_counterexample :
    analyze_and_reply true (.ok "[1, 2]") = .arr [.int 1, .int 2] ∧
    dictOrError (analyze_and_reply true (.ok "[1, 2]")) = false := by
  exact ⟨rfl, rfl⟩

/-- C8 (amended): `analyze_and_reply` is total at its interface — every
outcome is either an error string beginning `Error` or the successful
parse result of the provider's text (a JSON value of any shape, not
necessarily a dict); no exception escapes. -/
theorem c8_total_interface (clientConfigured : Bool) (provider : Except String String) :
    (∃ m, analyze_and_reply clientConfigured provider = .str m
        ∧ List.isPrefixOf "Error".data m.data = true) ∨
    (∃ s v, provider = .ok s ∧ interpretResponse (pyStrip s) = .ok v
        ∧ analyze_and_reply clientConfigured provider = v) := by
  cases clientConfigured with
  | false => exact Or.inl ⟨_, rfl, by rfl⟩
  | true =>
    cases provider with
    | error e => exact Or.inl ⟨_, rfl, errPrefix_append e⟩
    | ok s =>
      cases hi : interpretResponse (pyStrip s) with
      | ok v => exact Or.inr ⟨s, v, rfl, hi, by simp [analyze_and_reply, hi]⟩
      | error e =>
        refine Or.inl ⟨"Error while calling OpenAI API: " ++ e, ?_, errPrefix_append e⟩
        simp [analyze_and_reply, hi]

/-! ## Claim C10 -/

/-- C10: every listed message becomes a summary with all four fields, and a
metadata dict lacking a `From` (resp. `Subject`) header gets `"Unknown"`
(resp. `"(No subject)"`) substituted. -/
theorem c10_header_defaults :
    (∀ msgs, list_gmail_messages msgs = msgs.map (fun m => summarize_message m.1 m.2)) ∧
    (∀ mid d, headerGet (d.payloadHeaders.getD []) "From" = none →
      (summarize_message mid d).from_ = "Unknown") ∧
    (∀ mid d, headerGet (d.payloadHeaders.getD []) "Subject" = none →
      (summarize_message mid d).subject = "(No subject)") := by
  refine ⟨fun msgs => rfl, ?_, ?_⟩ <;> (intro mid d h; simp [summarize_message, h])

/-- C10 (witness): a message with only an unrelated `X` header. -/
theorem c10_header_defaults_witness :
    (summarize_message "id1" ⟨some [("X", "y")], some "s"⟩).from_ = "Unknown" ∧
    (summarize_message "id1" ⟨some [("X", "y")], some "s"⟩).subject = "(No subject)" :=
  ⟨c10_header_defaults.2.1 "id1" ⟨some [("X", "y")], some "s"⟩ rfl,
    c10_header_defaults.2.2 "id1" ⟨some [("X", "y")], some "s"⟩ rfl⟩

/-! ## Claim C5 -/

/-- C5: a response that is exactly a valid JSON object (characterised by the
grammar predicate `JBody`) is parsed to exactly that object — the identity
law: every field of the result equals the input value. -/
theorem c5_identity {ms : List (String × JsonValue)} {core : List Char}
    (h : JBody (.obj ms) core) :
    analyze_and_reply true (.ok ⟨core⟩) = .obj ms :=
  analyze_of_JBody h

/-- The concrete derivation: `{"a": 1}` is a valid JSON object text. -/
theorem jbody_obj_a1 :
    JBody (.obj [("a", .int 1)]) ['{', '"', 'a', '"', ':', ' ', '1', '}'] := by
  have hk : StrBody ['a', '"'] ['a'] :=
    .norm 'a' (by decide) (by decide) (by decide) .quote
  have hnum : NumBody (.int 1) ['1'] := by
    have h := @numBody_build false ['1'] [] []
      (Or.inr ⟨'1', [], rfl, by decide, by intro x hx; simp at hx⟩) (Or.inl rfl) (Or.inl rfl)
    simpa [numValue, digitsToNat] using h
  have hm : JMembers [("a", .int 1)] (['a', '"'] ++ [] ++ ':' :: [' '] ++ ['1'] ++ [] ++ ['}']) :=
    JMembers.last ['a', '"'] ['a'] [] [' '] [] ['1'] (.int 1) hk
      (by intro c hc; simp at hc) (by intro c hc; simp at hc; subst hc; decide)
      (by intro c hc; simp at hc) (.num _ _ hnum)
  exact JBody.objMembers [] _ _ (by intro c hc; simp at hc) hm

/-- C5 (witness): the concrete object text `{"a": 1}`. -/
theorem c5_identity_witness :
    analyze_and_reply true (.ok "\x7b\"a\": 1\x7d") = .obj [("a", .int 1)] :=
  c5_identity jbody_obj_a1

/-! ## Claim C2 -/

theorem analyze_of_fence {v : JsonValue} {t : List Char}
    (hFstrip : pyStrip ⟨backquote :: t⟩ = ⟨backquote :: t⟩)
    (hrepair : jsonLoads (repairClean ⟨backquote :: t⟩) = .ok v) :
    analyze_and_reply true (.ok ⟨backquote :: t⟩) = v := by
  obtain ⟨m, hm⟩ := jsonLoads_backquote (t := t)
  simp [analyze_and_reply, interpretResponse, hFstrip, hm, hrepair]

/-- C2 (amended): for every valid JSON object text, wrapping it in a
triple-backquote fence tagged `json`, or in an untagged fence, is repaired
by the interpreter to the same object the bare text parses to.  (Fences
tagged with other language labels are *not* repaired — see the
counterexample.) -/
theorem c2_fence_repair {ms : List (String × JsonValue)} {core : List Char}
    (h : JBody (.obj ms) core) :
    analyze_and_reply true (.ok ("```json\n" ++ ⟨core⟩ ++ "\n```")) = .obj ms ∧
    analyze_and_reply true (.ok ("```\n" ++ ⟨core⟩ ++ "\n```")) = .obj ms ∧
    analyze_and_reply true (.ok ⟨core⟩) = .obj ms := by
  obtain ⟨c0, t0, hceq, hcw, hcp, _⟩ := h.head_not_ws
  obtain ⟨d0, hdl, hdp⟩ := h.last_not_pyws
  refine ⟨?_, ?_, analyze_of_JBody h⟩
  · have hdata : ("```json\n" ++ (⟨core⟩ : String) ++ "\n```")
        = ⟨backquote :: (backquote :: backquote :: 'j' :: 's' :: 'o' :: 'n' :: '\n' ::
          (core ++ '\n' :: backquote :: backquote :: backquote :: []))⟩ := rfl
    rw [hdata]
    have hstrip : pyStrip ⟨backquote :: (backquote :: backquote :: 'j' :: 's' :: 'o' :: 'n' ::
          '\n' :: (core ++ '\n' :: backquote :: backquote :: backquote :: []))⟩
        = ⟨backquote :: (backquote :: backquote :: 'j' :: 's' :: 'o' :: 'n' :: '\n' ::
          (core ++ '\n' :: backquote :: backquote :: backquote :: []))⟩ := by
      refine congrArg String.mk (pyStripList_of_ends (c := backquote) (d := backquote) rfl
        (by decide) ?_ (by decide))
      rw [show backquote :: (backquote :: backquote :: 'j' :: 's' :: 'o' :: 'n' :: '\n' ::
          (core ++ '\n' :: backquote :: backquote :: backquote :: []))
          = (backquote :: backquote :: backquote :: 'j' :: 's' :: 'o' :: 'n' :: '\n' ::
            (core ++ ['\n', backquote, backquote])) ++ [backquote] from by simp,
        getLast?_append_ne (by simp)]
      rfl
    refine analyze_of_fence hstrip ?_
    rw [show (⟨backquote :: (backquote :: backquote :: 'j' :: 's' :: 'o' :: 'n' :: '\n' ::
        (core ++ '\n' :: backquote :: backquote :: backquote :: []))⟩ : String)
        = ⟨backquote :: backquote :: backquote :: 'j' :: 's' :: 'o' :: 'n' :: '\n' ::
        (core ++ '\n' :: backquote :: backquote :: backquote :: [])⟩ from rfl,
      repair_fence_json hceq hcp hdl hdp]
    exact jsonLoads_of_JBody h
  · have hdata : ("```\n" ++ (⟨core⟩ : String) ++ "\n```")
        = ⟨backquote :: (backquote :: backquote :: '\n' ::
          (core ++ '\n' :: backquote :: backquote :: backquote :: []))⟩ := rfl
    rw [hdata]
    have hstrip : pyStrip ⟨backquote :: (backquote :: backquote :: '\n' ::
          (core ++ '\n' :: backquote :: backquote :: backquote :: []))⟩
        = ⟨backquote :: (backquote :: backquote :: '\n' ::
          (core ++ '\n' :: backquote :: backquote :: backquote :: []))⟩ := by
      refine congrArg String.mk (pyStripList_of_ends (c := backquote) (d := backquote) rfl
        (by decide) ?_ (by decide))
      rw [show backquote :: (backquote :: backquote :: '\n' ::
          (core ++ '\n' :: backquote :: backquote :: backquote :: []))
          = (backquote :: backquote :: backquote :: '\n' ::
            (core ++ ['\n', backquote, backquote])) ++ [backquote] from by simp,
        getLast?_append_ne (by simp)]
      rfl
    refine analyze_of_fence hstrip ?_
    rw [show (⟨backquote :: (backquote :: backquote :: '\n' ::
        (core ++ '\n' :: backquote :: backquote :: backquote :: []))⟩ : String)
        = ⟨backquote :: backquote :: backquote :: '\n' ::
        (core ++ '\n' :: backquote :: backquote :: backquote :: [])⟩ from rfl,
      repair_fence_plain hceq hcp hdl hdp]
    rw [show (⟨'\n' :: (core ++ ['\n'])⟩ : String) = ⟨['\n'] ++ core ++ ['\n']⟩ from by simp]
    exact jsonLoads_pad h ['\n'] ['\n'] (by intro c hc; simp at hc; subst hc; decide)
      (by intro c hc; simp at hc; subst hc; decide)

/-- C2 (witness): the empty object `{}`, fenced all three ways. -/
theorem c2_fence_repair_witness :
    analyze_and_reply true (.ok "```json\n\x7b\x7d\n```") = .obj [] ∧
    analyze_and_reply true (.ok "```\n\x7b\x7d\n```") = .obj [] ∧
    analyze_and_reply true (.ok "\x7b\x7d") = .obj [] :=
  c2_fence_repair (JBody.objEmpty [] (by intro c hc; simp at hc))

set_option maxRecDepth 4000 in
/-- C2 (counterexample): the same valid object wrapped in a `yaml`-tagged
fence is *not* recovered — the repair only strips backquotes and an
optional `json` tag, so the tagged text still fails to parse while the
bare text parses to an object. -/
theorem c2_counterexample :
    isObjV (analyze_and_reply true (.ok "\x7b\"a\": 1\x7d")) = true ∧
    isObjV (analyze_and_reply true (.ok "```yaml\n\x7b\"a\": 1\x7d\n```")) = false := by
  constructor
  · rw [show analyze_and_reply true (.ok "\x7b\"a\": 1\x7d") = .obj [("a", .int 1)] from
      analyze_of_JBody jbody_obj_a1]
    rfl
  · rfl

/-! ## Claim C6 -/

set_option maxRecDepth 20000 in
/-- C6: the generated user instructions contain the email text verbatim, and
contain the hard constraint `MUST be exactly N.` with the decimal form of
the requested option count. -/
theorem c6_prompt_contains (email_text tone formality length : String) (num_options : Nat) :
    (∃ a b, (user_prompt email_text tone formality length num_options).data
        = a ++ email_text.data ++ b) ∧
    (∃ a b, (user_prompt email_text tone formality length num_options).data
        = a ++ ("MUST be exactly " ++ toString num_options ++ ".").data ++ b) := by
  constructor
  · exact ⟨upPart0.data, (upPart1 ++ tone ++ upPart2 ++ formality ++ upPart3 ++ length ++
      upPart4 ++ toString num_options ++ upPart5 ++ toString num_options ++ upPart6).data,
      by simp [user_prompt, strData_append, List.append_assoc]⟩
  · have h5 : upPart5.data = ("\n\nReturn ONLY a JSON object with the following EXACT structure (no comments, no extra text):\n\n\x7b\n  \"language\": \"<detected_language_code_or_name>\",\n  \"urgency\": \"<low|medium|high>\",\n  \"sentiment\": \"<positive|neutral|negative|mixed>\",\n  \"category\": \"<short_category_label>\",\n  \"summary\": \"<short_paragraph_summary>\",\n  \"action_items\": [\n    \"<item_1>\",\n    \"<item_2>\"\n  ],\n  \"replies\": [\n    \x7b\n      \"subject\": \"<suggested_subject_line>\",\n      \"body\": \"<full_email_body_ready_to_send>\"\n    \x7d\n  ]\n\x7d\n\nRules:\n- The length and style of each reply must match the user's preferences.\n- The number of elements in 'replies' " : String).data ++ ("MUST be exactly " : String).data := rfl
    have h6 : upPart6.data
        = ("." : String).data
          ++ ("\n- Do NOT include any explanation outside the JSON.\n" : String).data := rfl
    exact ⟨(upPart0 ++ email_text ++ upPart1 ++ tone ++ upPart2 ++ formality ++ upPart3 ++
      length ++ upPart4 ++ toString num_options ++ ("\n\nReturn ONLY a JSON object with the following EXACT structure (no comments, no extra text):\n\n\x7b\n  \"language\": \"<detected_language_code_or_name>\",\n  \"urgency\": \"<low|medium|high>\",\n  \"sentiment\": \"<positive|neutral|negative|mixed>\",\n  \"category\": \"<short_category_label>\",\n  \"summary\": \"<short_paragraph_summary>\",\n  \"action_items\": [\n    \"<item_1>\",\n    \"<item_2>\"\n  ],\n  \"replies\": [\n    \x7b\n      \"subject\": \"<suggested_subject_line>\",\n      \"body\": \"<full_email_body_ready_to_send>\"\n    \x7d\n  ]\n\x7d\n\nRules:\n- The length and style of each reply must match the user's preferences.\n- The number of elements in 'replies' " : String)).data,
      ("\n- Do NOT include any explanation outside the JSON.\n" : String).data,
      by simp [user_prompt, strData_append, h5, h6, List.append_assoc]⟩

/-! ## Claim C7 -/

/-- C7: a multi-part message with an HTML part carrying data and no
plain-text part with data returns the decoded HTML text; single-part
payloads are likewise handled; and whenever the base64url transport
decode succeeds, the UTF-8 stage never fails (malformed bytes are
dropped by `utf8DecodeIgnore`). -/
theorem c7_html_fallback :
    (∀ (pl : MessagePayload) (d s : String),
      (pl.body.getD default).data = none →
      firstPartData (pl.parts.getD []) "text/plain" = none →
      firstPartData (pl.parts.getD []) "text/html" = some d →
      decode_data d = some s →
      get_gmail_message_body ⟨some pl⟩ = some s) ∧
    (∀ (pl : MessagePayload) (d : String),
      (pl.body.getD default).data = some d →
      get_gmail_message_body ⟨some pl⟩ = decode_data d) ∧
    (∀ (data : String) (bs : List Nat), urlsafe_b64decode data = some bs →
      decode_data data = some (pyStrip ⟨utf8DecodeIgnore bs⟩)) := by
  refine ⟨?_, ?_, ?_⟩
  · intro pl d s h1 h2 h3 h4
    simp [get_gmail_message_body, htmlFallback, h1, h2, h3, h4]
  · intro pl d h
    simp [get_gmail_message_body, h]
  · intro data bs h
    simp [decode_data, h]

/-- `base64.urlsafe_b64decode` and the tolerant UTF-8 decode on the
concrete transport text `aGk=` (the bytes of `hi`). -/
theorem decode_data_aGk : decode_data "aGk=" = some "hi" := by
  show (urlsafe_b64decode "aGk=").map (fun bs => pyStrip ⟨utf8DecodeIgnore bs⟩) = some "hi"
  rw [show urlsafe_b64decode "aGk=" = some [104, 105] from rfl, Option.map_some',
    show utf8DecodeIgnore [104, 105] = ['h', 'i'] from rfl]
  rfl

/-- C7 (witness): an HTML-only multi-part message whose part data `aGk=`
decodes to `hi`. -/
theorem c7_html_fallback_witness :
    get_gmail_message_body ⟨some ⟨none, some [⟨some "text/html", some ⟨some "aGk="⟩⟩]⟩⟩
      = some "hi" :=
  c7_html_fallback.1 ⟨none, some [⟨some "text/html", some ⟨some "aGk="⟩⟩]⟩ "aGk=" "hi"
    rfl rfl rfl decode_data_aGk

/-! ## Claim C9 -/

/-- C9: a payload with no single-part data, no plain-text part data and no
HTML part data yields the empty string (no exception, no sentinel), and
every string `decode_data` returns is already whitespace-trimmed. -/
theorem c9_empty_body_and_trim :
    (∀ (pl : MessagePayload),
      (pl.body.getD default).data = none →
      firstPartData (pl.parts.getD []) "text/plain" = none →
      firstPartData (pl.parts.getD []) "text/html" = none →
      get_gmail_message_body ⟨some pl⟩ = some "") ∧
    (∀ (d s : String), decode_data d = some s → pyStrip s = s) := by
  constructor
  · intro pl h1 h2 h3
    simp [get_gmail_message_body, htmlFallback, h1, h2, h3]
  · intro d s h
    simp only [decode_data, Option.map_eq_some'] at h
    obtain ⟨bs, hbs, hfa⟩ := h
    rw [← hfa, pyStrip_idem]

/-- C9 (witness): the all-empty payload, and the trimmed decode of `aGk=`. -/
theorem c9_empty_body_and_trim_witness :
    get_gmail_message_body ⟨some ⟨none, none⟩⟩ = some "" ∧ pyStrip "hi" = "hi" :=
  ⟨c9_empty_body_and_trim.1 ⟨none, none⟩ rfl rfl rfl,
    c9_empty_body_and_trim.2 "aGk=" "hi" decode_data_aGk⟩

end AiEmailAssistant
